import Mathlib

/-!
Verification of the ryujin hyperbolic update kernel

A shallow embedding of the per-time-step hyperbolic update kernel of the
ryujin repository (`source/hyperbolic_module.template.h`), of the AEOS
convex-limiter relaxation (`source/euler_aeos/limiter.h`), of the
synchronization dispatch latch (`source/openmp.h`) and of the
multi-component vector component export/import
(`source/multicomponent_vector.h`).

Modelling conventions, fixed once for the whole development:

* Machine floating-point numbers are modelled by `ℚ` (exact rationals)
  except for the AEOS limiter relaxation, which needs `Real.sqrt` and is
  modelled over `ℝ`.  `tau_max`, which the C++ code initialises to
  `+infinity`, is modelled by `Option ℚ` with `none` standing for the
  infinite initial value of the min-reduction.
* The embedding models a single MPI rank: the ghost ranges are empty, the
  MPI `min`/`logical_or` reductions are the identity, and the
  `coupling_boundary_pairs` list (owner–ghost edges) is empty.
* The OpenMP row loops of the kernel write only to the row they iterate on, so
  the parallel loops are modelled by their sequential (functional)
  semantics; the scalar (non-vectorized) loop body is the one embedded,
  i.e. `all_below_diagonal` is the scalar test `j < i`.
* The `step` kernel is embedded at `stages = 0` (no Runge-Kutta stage
  states), so `weight = -accumulate(stage_weights, -1) = 1` and all
  `if constexpr (stages != 0)` blocks vanish.
* Code of the repository that is outside the given sources
  (`riemann_solver.h`, the `HyperbolicSystem` flux, the `Indicator`,
  and `Limiter::limit`) enters the embedding as opaque function
  parameters of the context structure; the claims proved here do
  not depend on their definitions.
-/

namespace Ryujin

/-- A state vector (one `problem_dimension`-tuple per DOF). -/
abbrev RState (pd : ℕ) := Fin pd → ℚ

/-- A scalar-valued stencil matrix, indexed by `(row, in-row position)`,
following the compressed-row storage of `SparseMatrixSIMD`. -/
abbrev RMat := ℕ → ℕ → ℚ

/-- A state-valued stencil matrix (`c_ij` or `p_ij`-like), indexed by
`(row, in-row position)`. -/
abbrev SMat (pd : ℕ) := ℕ → ℕ → RState pd

/-- The sparsity pattern of `SparsityPatternSIMD`: number of locally owned
rows, `row_length`, and the column list of each row, `cols i k` being the
column of the `k`-th entry of row `i`. -/
structure Pattern where
  n : ℕ
  rl : ℕ → ℕ
  cols : ℕ → ℕ → ℕ

/-- Position of column `i` inside row `j`: the transpose-index map used by
`get_transposed_entry`.  The implementation precomputes this permutation
from the sparsity pattern; here it is recovered by searching the row. -/
def Pattern.posOf (P : Pattern) (j i : ℕ) : ℕ :=
  (((List.range (P.rl j)).find? (fun k => P.cols j k == i)).getD 0)

/-- Well-formedness of the sparsity pattern, as documented in the data
model of the spec: every owned row is nonempty, position `0` holds the diagonal,
columns stay in the owned range (single rank), rows list each column at
most once, and the pattern is structurally symmetric. -/
structure Pattern.WF (P : Pattern) : Prop where
  rl_pos : ∀ i, i < P.n → 0 < P.rl i
  diag : ∀ i, i < P.n → P.cols i 0 = i
  cols_lt : ∀ i, i < P.n → ∀ k, k < P.rl i → P.cols i k < P.n
  inj : ∀ i, i < P.n → ∀ k, k < P.rl i → ∀ l, l < P.rl i →
    P.cols i k = P.cols i l → k = l
  symm : ∀ i, i < P.n → ∀ k, k < P.rl i →
    ∃ l, l < P.rl (P.cols i k) ∧ P.cols (P.cols i k) l = i

theorem Pattern.posOf_eq (P : Pattern) (hP : P.WF) {j i k : ℕ}
    (hj : j < P.n) (hk : k < P.rl j) (hc : P.cols j k = i) :
    P.posOf j i = k := by
  have hmem : k ∈ List.range (P.rl j) := List.mem_range.mpr hk
  have hpred : (fun k => P.cols j k == i) k = true := by
    simp [hc]
  have hsome : ((List.range (P.rl j)).find? (fun k => P.cols j k == i)).isSome := by
    rw [List.find?_isSome]
    exact ⟨k, hmem, hpred⟩
  obtain ⟨a, ha⟩ := Option.isSome_iff_exists.mp hsome
  have hamem : a ∈ List.range (P.rl j) := List.mem_of_find?_eq_some ha
  have hap := List.find?_some ha
  have haeq : P.cols j a = i := by simpa using hap
  have : a = k :=
    hP.inj j hj a (List.mem_range.mp hamem) k hk (haeq.trans hc.symm)
  simp [Pattern.posOf, ha, this]

/-- The diagonal sits at position `0` and the transpose map sends it to
itself. -/
theorem Pattern.posOf_diag (P : Pattern) (hP : P.WF) {i : ℕ}
    (hi : i < P.n) (hrl : 0 < P.rl i) : P.posOf i i = 0 :=
  P.posOf_eq hP hi hrl (hP.diag i hi)

/-- A neighbour of an unconstrained owned row is itself an unconstrained
owned row, and the transpose position is a genuine off-diagonal position
of the row of the neighbour. -/
theorem Pattern.neighbor_active (P : Pattern) (hP : P.WF) {i k : ℕ}
    (hi : i < P.n) (hrl : 1 < P.rl i) (hk1 : 1 ≤ k) (hk : k < P.rl i) :
    P.cols i k < P.n ∧ 1 < P.rl (P.cols i k) ∧ P.cols i k ≠ i ∧
      ∃ l, 1 ≤ l ∧ l < P.rl (P.cols i k) ∧ P.cols (P.cols i k) l = i := by
  have hjn : P.cols i k < P.n := hP.cols_lt i hi k hk
  have hne : P.cols i k ≠ i := by
    intro h
    have h0 : P.cols i k = P.cols i 0 := by rw [h, hP.diag i hi]
    have : k = 0 := hP.inj i hi k hk 0 (lt_of_lt_of_le Nat.zero_lt_one hrl.le) h0
    omega
  obtain ⟨l, hl, hcl⟩ := hP.symm i hi k hk
  have hl1 : 1 ≤ l := by
    rcases Nat.eq_zero_or_pos l with h0 | h1
    · exfalso
      apply hne
      rw [h0] at hcl
      rw [hP.diag (P.cols i k) hjn] at hcl
      exact hcl
    · exact h1
  exact ⟨hjn, lt_of_le_of_lt hl1 hl, hne, l, hl1, hl, hcl⟩

/-- The restart policy `IDViolationStrategy` of `hyperbolic_module.h`. -/
inductive Strategy where
  | warn : Strategy
  | raiseExc : Strategy
deriving DecidableEq

/-- The read-only inputs of `HyperbolicModule::step`, for a single MPI
rank at `stages = 0`.  Fields that embed code outside the given sources
are marked: they are opaque parameters of the model.

* `lam i k` models `norm * riemann_solver.compute(U_i, U_j, n_ij)` of
  pass 1 at row `i`, in-row position `k` (`riemann_solver.h` is not among
  the sources).
* `f` models `HyperbolicSystem::f` (flux, external).
* `alphaVal i` models the value `indicator.alpha(hd_i)` written in pass 1
  (the `Indicator` class is external).
* `bnds i` models the bounds tuple `limiter.bounds()` written in pass 3
  (the bounds accumulation is external to the sources of the 2020-2021
  `HyperbolicModule`); its type `B` is abstract.
* `limitFn` models `Limiter::limit` applied to a bounds tuple, the
  current state `U_i_new` and a direction `p_ij`, returning
  `(l_ij, success)`; the Newton tolerance and iteration cap are absorbed
  into the function.
* `admissible` models `hyperbolic_system.is_admissible`, and
  `checkBounds` the `CHECK_BOUNDS` compile-time flag guarding its use. -/
structure Ctx (pd dimn : ℕ) (B : Type) where
  pat : Pattern
  lam : ℕ → ℕ → ℚ
  f : RState pd → Fin pd → Fin dimn → ℚ
  cij : ℕ → ℕ → Fin dimn → ℚ
  m : ℕ → ℚ
  mInv : ℕ → ℚ
  mij : ℕ → ℕ → ℚ
  isBoundary : ℕ → Bool
  cfl : ℚ
  cflWithBdry : Bool
  limiterIter : ℕ
  alphaVal : ℕ → ℚ
  bnds : ℕ → B
  limitFn : B → RState pd → RState pd → ℚ × Bool
  admissible : RState pd → Bool
  checkBounds : Bool
  strategy : Strategy

/-- The initial contents of the transient matrices and scratch vectors
allocated by `prepare()` (the kernel overwrites them row by row; rows it
skips keep these values). -/
structure Bufs (pd : ℕ) (B : Type) where
  d0 : RMat
  alpha0 : ℕ → ℚ
  bounds0 : ℕ → B
  r0 : ℕ → RState pd
  p0 : SMat pd
  l0 : RMat
  lnext0 : RMat
  newU0 : ℕ → RState pd

variable {pd dimn : ℕ} {B : Type}

/-- Pass 1 of `step`: for every unconstrained owned row `i` and every
off-diagonal position `k` whose column is not below the diagonal
(`all_below_diagonal`, scalar branch: `j < i`), write
`d_ij = norm(c_ij) * lambda_max`; every other entry keeps its previous
value. -/
def dij1 (C : Ctx pd dimn B) (d0 : RMat) : RMat := fun i k =>
  if i < C.pat.n ∧ 1 < C.pat.rl i ∧ 1 ≤ k ∧ k < C.pat.rl i ∧
      ¬ (C.pat.cols i k < i) then
    C.lam i k
  else d0 i k

/-- The value of entry `k` of row `i` after the in-row symmetrization of
pass 2: positions whose column lies below the diagonal receive the
transposed entry (`get_transposed_entry`), the rest keep the pass 1
value. -/
def dsym (C : Ctx pd dimn B) (d1 : RMat) (i k : ℕ) : ℚ :=
  if C.pat.cols i k < i then
    d1 (C.pat.cols i k) (C.pat.posOf (C.pat.cols i k) i)
  else d1 i k

/-- Pass 2 of `step` (single rank: `coupling_boundary_pairs` is empty):
per unconstrained owned row, fill the lower triangle from the transpose
and write the diagonal `d_ii = -sum_{k >= 1} d_ik`. -/
def dij2 (C : Ctx pd dimn B) (d1 : RMat) : RMat := fun i k =>
  if i < C.pat.n ∧ 1 < C.pat.rl i then
    if k = 0 then
      - ∑ x in Finset.Ico 1 (C.pat.rl i), dsym C d1 i x
    else if k < C.pat.rl i then dsym C d1 i k
    else d1 i k
  else d1 i k

/-- The candidate time-step size of row `i` in pass 2:
`tau = cfl * m_i / (-2 * d_sum)` where `d_sum` is the freshly written
diagonal entry. -/
def tauOf (C : Ctx pd dimn B) (d : RMat) (i : ℕ) : ℚ :=
  C.cfl * C.m i / (-2 * d i 0)

/-- Row `i` participates in the `tau_max` min-reduction: it is
unconstrained, and not a boundary DOF unless `cfl with boundary dofs`
is set. -/
def eligible (C : Ctx pd dimn B) (i : ℕ) : Prop :=
  1 < C.pat.rl i ∧ (C.isBoundary i = false ∨ C.cflWithBdry = true)

instance (C : Ctx pd dimn B) (i : ℕ) : Decidable (eligible C i) := by
  unfold eligible
  infer_instance

/-- The contribution of one row to the `tau_max` atomic min-reduction. -/
def tauStep (C : Ctx pd dimn B) (d : RMat) (acc : Option ℚ) (i : ℕ) :
    Option ℚ :=
  if eligible C i then
    match acc with
    | none => some (tauOf C d i)
    | some t => some (min t (tauOf C d i))
  else acc

/-- The `tau_max` min-reduction of pass 2 over the owned rows.  The C++
code initialises an atomic to `+infinity` and `compare_exchange`s it down;
`none` models the untouched infinite initial value.  The MPI `min` is the
identity on a single rank. -/
def tauMaxOpt (C : Ctx pd dimn B) (d : RMat) : Option ℚ :=
  (List.range C.pat.n).foldl (tauStep C d) none

/-- The contraction `temp = (f_j[comp] - f_i[comp]) . c_ij` of passes 3
and 4. -/
def fluxJump (C : Ctx pd dimn B) (U : ℕ → RState pd) (i k : ℕ)
    (comp : Fin pd) : ℚ :=
  ∑ dd : Fin dimn,
    (C.f (U (C.pat.cols i k)) comp dd - C.f (U i) comp dd) * C.cij i k dd

/-- The high-order graph viscosity
`d_ij^H = d_ij * (alpha_i + alpha_j) * 0.5`. -/
def dijH (C : Ctx pd dimn B) (d : RMat) (alphaA : ℕ → ℚ) (i k : ℕ) : ℚ :=
  d i k * (alphaA i + alphaA (C.pat.cols i k)) * (1 / 2)

/-- The bar state of pass 3,
`U_ij_bar = 0.5 * (U_i + U_j - temp * d_ij_inv)` with
`d_ij_inv = 1 / d_ij` exactly as in the source (no guard on `d_ij`; a
zero `d_ij` is divided by as-is, which in the rational model follows
the Lean convention `1 / 0 = 0` while IEEE arithmetic would produce an
infinity — either way, not the epsilon-guarded value). -/
def barState (C : Ctx pd dimn B) (d : RMat) (U : ℕ → RState pd)
    (i k : ℕ) : RState pd := fun comp =>
  (1 / 2) * (U i comp + U (C.pat.cols i k) comp -
    fluxJump C U i k comp * (1 / d i k))

/-- Modelled from the spec: the bar state with the epsilon guard the spec
describes ("set `d_ij -> d_ij + eps` if zero to avoid division"); to be
compared against `barState`, the unguarded version found in the code. -/
def barStateSpec (C : Ctx pd dimn B) (eps : ℚ) (d : RMat)
    (U : ℕ → RState pd) (i k : ℕ) : RState pd := fun comp =>
  (1 / 2) * (U i comp + U (C.pat.cols i k) comp -
    fluxJump C U i k comp *
      (1 / (if d i k = 0 then d i k + eps else d i k)))

/-- The vector `r_i` accumulated in pass 3 at `stages = 0` (so
`weight = 1`):
`r_i = sum_j (-(f_j - f_i) . c_ij) + d_ij^H * (U_j - U_i)`. -/
def rOf (C : Ctx pd dimn B) (d : RMat) (alphaA : ℕ → ℚ)
    (U : ℕ → RState pd) (i : ℕ) : RState pd := fun comp =>
  ∑ k in Finset.range (C.pat.rl i),
    (-(fluxJump C U i k comp) +
      dijH C d alphaA i k * (U (C.pat.cols i k) comp - U i comp))

/-- The low-order update of pass 3:
`U_i_new = U_i + sum_j tau * m_i_inv * 2 * d_ij * U_ij_bar`. -/
def lowOrder (C : Ctx pd dimn B) (d : RMat) (U : ℕ → RState pd)
    (tau : ℚ) (i : ℕ) : RState pd := fun comp =>
  U i comp + ∑ k in Finset.range (C.pat.rl i),
    tau * C.mInv i * 2 * d i k * barState C d U i k comp

/-- The `alpha_` vector after pass 1: unconstrained owned rows receive the
indicator value, the rest keep the initial contents. -/
def alphaArr (C : Ctx pd dimn B) (alpha0 : ℕ → ℚ) : ℕ → ℚ := fun i =>
  if i < C.pat.n ∧ 1 < C.pat.rl i then C.alphaVal i else alpha0 i

/-- The `bounds_` vector after pass 3. -/
def boundsArr (C : Ctx pd dimn B) (bounds0 : ℕ → B) : ℕ → B := fun i =>
  if i < C.pat.n ∧ 1 < C.pat.rl i then C.bnds i else bounds0 i

/-- The `r_` vector after pass 3. -/
def rArr (C : Ctx pd dimn B) (d : RMat) (alphaA : ℕ → ℚ)
    (U : ℕ → RState pd) (r0 : ℕ → RState pd) : ℕ → RState pd := fun i =>
  if i < C.pat.n ∧ 1 < C.pat.rl i then rOf C d alphaA U i else r0 i

/-- The `new_U` vector after pass 3. -/
def newU3 (C : Ctx pd dimn B) (d : RMat) (U : ℕ → RState pd) (tau : ℚ)
    (newU0 : ℕ → RState pd) : ℕ → RState pd := fun i =>
  if i < C.pat.n ∧ 1 < C.pat.rl i then lowOrder C d U tau i else newU0 i

/-- The direction `p_ij` of pass 4 at `stages = 0`:
`p_ij = factor * ((d_ij^H - d_ij) * (U_j - U_i) + b_ij * r_j - b_ji * r_i)`
with `factor = tau * m_i_inv * lambda_inv`, `lambda_inv = row_length - 1`,
`b_ij = delta_ij - m_ij * m_j_inv` and `b_ji = delta_ij - m_ij * m_i_inv`
(position `0` is the diagonal). -/
def pOf (C : Ctx pd dimn B) (d : RMat) (alphaA : ℕ → ℚ)
    (rA : ℕ → RState pd) (U : ℕ → RState pd) (tau : ℚ) (i k : ℕ) :
    RState pd := fun comp =>
  (tau * C.mInv i * ((C.pat.rl i - 1 : ℕ) : ℚ)) *
    ((dijH C d alphaA i k - d i k) *
        (U (C.pat.cols i k) comp - U i comp) +
      ((if k = 0 then 1 else 0) - C.mij i k * C.mInv (C.pat.cols i k)) *
        rA (C.pat.cols i k) comp -
      ((if k = 0 then 1 else 0) - C.mij i k * C.mInv i) * rA i comp)

/-- The `pij_matrix_` after pass 4. -/
def pArr (C : Ctx pd dimn B) (d : RMat) (alphaA : ℕ → ℚ)
    (rA : ℕ → RState pd) (U : ℕ → RState pd) (tau : ℚ) (p0 : SMat pd) :
    SMat pd := fun i k =>
  if i < C.pat.n ∧ 1 < C.pat.rl i ∧ k < C.pat.rl i then
    pOf C d alphaA rA U tau i k
  else p0 i k

/-- The `lij_matrix_` after pass 4: `l_ij` is the limiter coefficient of
`limit(bounds_i, U_i_new, p_ij)`. -/
def lArr (C : Ctx pd dimn B) (bA : ℕ → B) (U3 : ℕ → RState pd)
    (d : RMat) (alphaA : ℕ → ℚ) (rA : ℕ → RState pd)
    (U : ℕ → RState pd) (tau : ℚ) (l0 : RMat) : RMat := fun i k =>
  if i < C.pat.n ∧ 1 < C.pat.rl i ∧ k < C.pat.rl i then
    (C.limitFn (bA i) (U3 i) (pOf C d alphaA rA U tau i k)).1
  else l0 i k

/-- Whether some `limit` invocation of pass 4 reported failure (the
per-thread writes to the `restart_needed` atomic, OR-combined). -/
def pass4Fail (C : Ctx pd dimn B) (bA : ℕ → B) (U3 : ℕ → RState pd)
    (d : RMat) (alphaA : ℕ → ℚ) (rA : ℕ → RState pd)
    (U : ℕ → RState pd) (tau : ℚ) : Bool :=
  (List.range C.pat.n).any fun i =>
    decide (1 < C.pat.rl i) &&
      ((List.range (C.pat.rl i)).any fun k =>
        !(C.limitFn (bA i) (U3 i) (pOf C d alphaA rA U tau i k)).2)

/-- The min-symmetrized limiter coefficient read in the high-order
sweeps: `min(l_ij, l_ji)` via the transpose-index map. -/
def lsym (C : Ctx pd dimn B) (L : RMat) (i k : ℕ) : ℚ :=
  min (L i k) (L (C.pat.cols i k) (C.pat.posOf (C.pat.cols i k) i))

/-- The first column loop of a high-order sweep:
`U_i_new += min(l_ij, l_ji) * lambda * p_ij` with
`lambda = 1 / (row_length - 1)`; constrained rows are skipped and keep the
current buffer value. -/
def sweepU (C : Ctx pd dimn B) (U : ℕ → RState pd) (L : RMat)
    (P : SMat pd) : ℕ → RState pd := fun i =>
  if i < C.pat.n ∧ 1 < C.pat.rl i then fun comp =>
    U i comp + ∑ k in Finset.range (C.pat.rl i),
      lsym C L i k * (1 / ((C.pat.rl i - 1 : ℕ) : ℚ)) * P i k comp
  else U i

/-- The second column loop of a non-final sweep, writing
`lij_matrix_next_`.  With `short = true` (the `limiter_iter_ == 2`
shortcut) the entry is `(1 - l_ij) * l_ij_new`; otherwise it is
`l_ij_new`.  `l_ij_new` is `limit` recomputed against the updated
`U_i_new` with direction `(1 - l_ij) * p_ij`. -/
def sweepLnext (C : Ctx pd dimn B) (short : Bool) (bA : ℕ → B)
    (U2 : ℕ → RState pd) (L : RMat) (P : SMat pd) (N : RMat) : RMat :=
  fun i k =>
    if i < C.pat.n ∧ 1 < C.pat.rl i ∧ k < C.pat.rl i then
      let nl := (C.limitFn (bA i) (U2 i)
        (fun comp => (1 - lsym C L i k) * P i k comp)).1
      if short then (1 - lsym C L i k) * nl else nl
    else N i k

/-- The `pij_matrix_` update of a non-final sweep: the shortcut leaves it
untouched, the general path stores `(1 - l_ij) * p_ij`. -/
def sweepPnew (C : Ctx pd dimn B) (short : Bool) (L : RMat)
    (P : SMat pd) : SMat pd := fun i k =>
  if short then P i k
  else if i < C.pat.n ∧ 1 < C.pat.rl i ∧ k < C.pat.rl i then
    fun comp => (1 - lsym C L i k) * P i k comp
  else P i k

/-- Whether some `limit` invocation of a non-final sweep reported
failure. -/
def sweepFail (C : Ctx pd dimn B) (bA : ℕ → B) (U2 : ℕ → RState pd)
    (L : RMat) (P : SMat pd) : Bool :=
  (List.range C.pat.n).any fun i =>
    decide (1 < C.pat.rl i) &&
      ((List.range (C.pat.rl i)).any fun k =>
        !(C.limitFn (bA i) (U2 i)
            (fun comp => (1 - lsym C L i k) * P i k comp)).2)

/-- Whether the optional `CHECK_BOUNDS` admissibility test of a sweep
fails on some unconstrained owned row. -/
def admFail (C : Ctx pd dimn B) (U2 : ℕ → RState pd) : Bool :=
  C.checkBounds &&
    ((List.range C.pat.n).any fun i =>
      decide (1 < C.pat.rl i) && !(C.admissible (U2 i)))

/-- The state threaded through the high-order sweeps: the `new_U` vector,
the current `lij_matrix_`, the current `lij_matrix_next_` buffer, the
`pij_matrix_` and the accumulated restart flag. -/
structure SweepOut (pd : ℕ) where
  u : ℕ → RState pd
  lcur : RMat
  lnxt : RMat
  p : SMat pd
  rst : Bool

/-- One non-final high-order sweep: the update loop, the `limit`
recomputation into `lij_matrix_next_`, the `p`-matrix rewrite of the
general path, the restart-flag contributions, and the end-of-sweep swap
of `lij_matrix_` with `lij_matrix_next_`. -/
def nextSweep (C : Ctx pd dimn B) (bA : ℕ → B) (s : SweepOut pd) :
    SweepOut pd :=
  { u := sweepU C s.u s.lcur s.p,
    lcur := sweepLnext C (decide (C.limiterIter = 2)) bA
      (sweepU C s.u s.lcur s.p) s.lcur s.p s.lnxt,
    lnxt := s.lcur,
    p := sweepPnew C (decide (C.limiterIter = 2)) s.lcur s.p,
    rst := s.rst || admFail C (sweepU C s.u s.lcur s.p) ||
      sweepFail C bA (sweepU C s.u s.lcur s.p) s.lcur s.p }

/-- The final high-order sweep: only the update loop (plus the optional
admissibility check); `l_ij` and `p_ij` are not recomputed and no swap
happens. -/
def lastSweep (C : Ctx pd dimn B) (s : SweepOut pd) : SweepOut pd :=
  { u := sweepU C s.u s.lcur s.p,
    lcur := s.lcur, lnxt := s.lnxt, p := s.p,
    rst := s.rst || admFail C (sweepU C s.u s.lcur s.p) }

/-- Passes `5, ..., 4 + limiter_iter_`, iterated on the number of
remaining sweeps.  A non-final sweep computes the high-order update, the
next `l`-matrix and (general path) the new `p`-matrix, and then swaps
`lij_matrix_` with `lij_matrix_next_`; the final sweep only updates
`new_U`.  Every sweep ORs the admissibility failure into the restart
flag, every non-final one also the `limit` failures. -/
def runSweeps (C : Ctx pd dimn B) (bA : ℕ → B) :
    ℕ → SweepOut pd → SweepOut pd
  | 0, s => s
  | 1, s => lastSweep C s
  | (r + 2), s => runSweeps C bA (r + 1) (nextSweep C bA s)

/-- The restart flag contributed by the sweeps alone (mirror of the flag
accumulation of `runSweeps`, used to state when the flag is set). -/
def runSweepsRst (C : Ctx pd dimn B) (bA : ℕ → B) :
    ℕ → SweepOut pd → Bool
  | 0, _ => false
  | 1, s => admFail C (sweepU C s.u s.lcur s.p)
  | (r + 2), s =>
    admFail C (sweepU C s.u s.lcur s.p) ||
      sweepFail C bA (sweepU C s.u s.lcur s.p) s.lcur s.p ||
      runSweepsRst C bA (r + 1) (nextSweep C bA s)

/-- The outcome of one `step` call: the final contents of the output
vector and of the transient matrices and vectors, the returned `tau_max`,
the restart flag after the (single-rank) OR-reduce, and the resulting
error-handling actions: how much `n_warnings_` and `n_restarts_` are
incremented and whether a `Restart` exception is thrown. -/
structure StepResult (pd : ℕ) (B : Type) where
  newU : ℕ → RState pd
  tauMax : ℚ
  dM : RMat
  alphaA : ℕ → ℚ
  boundsA : ℕ → B
  rA : ℕ → RState pd
  pM : SMat pd
  lM : RMat
  lnextM : RMat
  restartNeeded : Bool
  nWarnInc : ℕ
  nRestartInc : ℕ
  thrownRestart : Bool

/-- The finalisation of `step`: on restart, policy `warn` increments the
warning counter and returns normally, policy `raise_exception` increments
the restart counter and throws `Restart()`. -/
def finalize (C : Ctx pd dimn B) (tm : ℚ) (dM : RMat) (alphaA : ℕ → ℚ)
    (boundsA : ℕ → B) (rA : ℕ → RState pd) (s : SweepOut pd) :
    StepResult pd B :=
  { newU := s.u, tauMax := tm, dM := dM, alphaA := alphaA,
    boundsA := boundsA, rA := rA, pM := s.p, lM := s.lcur,
    lnextM := s.lnxt, restartNeeded := s.rst,
    nWarnInc := if s.rst then (match C.strategy with
      | Strategy.warn => 1 | Strategy.raiseExc => 0) else 0,
    nRestartInc := if s.rst then (match C.strategy with
      | Strategy.warn => 0 | Strategy.raiseExc => 1) else 0,
    thrownRestart := s.rst && decide (C.strategy = Strategy.raiseExc) }

/-- The kernel `HyperbolicModule::step` (single rank, `stages = 0`): passes 0-2
compute `d_ij` and `tau_max`; the `AssertThrow` on an infinite or
non-positive `tau_max` is modelled by returning `none` (a fatal abort);
a zero input `tau` is replaced by `tau_max`; pass 3 performs the
low-order update and writes `r_i` and the bounds; when
`limiter_iter_ != 0`, pass 4 computes `p_ij` and the first `l_ij` and the
high-order sweeps follow.  `stepCore` is the successful branch given the
computed `tau_max = tm` and the effective step size `tau` (`sweep0` is
the sweep state after pass 4); `stepBody` substitutes `tau_max` for a
zero input `tau`, and `step` wraps the whole behind the fatal checks. -/
def sweep0 (C : Ctx pd dimn B) (bufs : Bufs pd B) (U : ℕ → RState pd)
    (tau : ℚ) : SweepOut pd :=
  { u := newU3 C (dij2 C (dij1 C bufs.d0)) U tau bufs.newU0,
    lcur := lArr C (boundsArr C bufs.bounds0)
      (newU3 C (dij2 C (dij1 C bufs.d0)) U tau bufs.newU0)
      (dij2 C (dij1 C bufs.d0)) (alphaArr C bufs.alpha0)
      (rArr C (dij2 C (dij1 C bufs.d0)) (alphaArr C bufs.alpha0) U
        bufs.r0) U tau bufs.l0,
    lnxt := bufs.lnext0,
    p := pArr C (dij2 C (dij1 C bufs.d0)) (alphaArr C bufs.alpha0)
      (rArr C (dij2 C (dij1 C bufs.d0)) (alphaArr C bufs.alpha0) U
        bufs.r0) U tau bufs.p0,
    rst := pass4Fail C (boundsArr C bufs.bounds0)
      (newU3 C (dij2 C (dij1 C bufs.d0)) U tau bufs.newU0)
      (dij2 C (dij1 C bufs.d0)) (alphaArr C bufs.alpha0)
      (rArr C (dij2 C (dij1 C bufs.d0)) (alphaArr C bufs.alpha0) U
        bufs.r0) U tau }

def stepCore (C : Ctx pd dimn B) (bufs : Bufs pd B) (U : ℕ → RState pd)
    (tau tm : ℚ) : StepResult pd B :=
  if C.limiterIter = 0 then
    finalize C tm (dij2 C (dij1 C bufs.d0)) (alphaArr C bufs.alpha0)
      (boundsArr C bufs.bounds0)
      (rArr C (dij2 C (dij1 C bufs.d0)) (alphaArr C bufs.alpha0) U
        bufs.r0)
      { u := newU3 C (dij2 C (dij1 C bufs.d0)) U tau bufs.newU0,
        lcur := bufs.l0, lnxt := bufs.lnext0, p := bufs.p0,
        rst := false }
  else
    finalize C tm (dij2 C (dij1 C bufs.d0)) (alphaArr C bufs.alpha0)
      (boundsArr C bufs.bounds0)
      (rArr C (dij2 C (dij1 C bufs.d0)) (alphaArr C bufs.alpha0) U
        bufs.r0)
      (runSweeps C (boundsArr C bufs.bounds0) C.limiterIter
        (sweep0 C bufs U tau))

/-- The successful branch of `step`: a zero input `tau` is replaced by
the computed `tau_max`. -/
def stepBody (C : Ctx pd dimn B) (bufs : Bufs pd B) (U : ℕ → RState pd)
    (tauIn tm : ℚ) : StepResult pd B :=
  stepCore C bufs U (if tauIn = 0 then tm else tauIn) tm

/-- The full `HyperbolicModule::step`: `none` models the collective fatal
`AssertThrow` on an infinite or non-positive `tau_max`. -/
def step (C : Ctx pd dimn B) (bufs : Bufs pd B) (U : ℕ → RState pd)
    (tauIn : ℚ) : Option (StepResult pd B) :=
  match tauMaxOpt C (dij2 C (dij1 C bufs.d0)) with
  | none => none
  | some tm =>
    if 0 < tm then some (stepBody C bufs U tauIn tm) else none

/-! ## Helper lemmas about the viscosity passes -/

theorem dij1_eq_lam (C : Ctx pd dimn B) (d0 : RMat) {i k : ℕ}
    (hi : i < C.pat.n) (hrl : 1 < C.pat.rl i) (hk1 : 1 ≤ k)
    (hk : k < C.pat.rl i) (hup : ¬ (C.pat.cols i k < i)) :
    dij1 C d0 i k = C.lam i k := by
  unfold dij1
  rw [if_pos ⟨hi, hrl, hk1, hk, hup⟩]

/-- Off-diagonal entries after pass 2 are the symmetrized values. -/
theorem dij2_off (C : Ctx pd dimn B) (d1 : RMat) {i k : ℕ}
    (hi : i < C.pat.n) (hrl : 1 < C.pat.rl i) (hk1 : 1 ≤ k)
    (hk : k < C.pat.rl i) :
    dij2 C d1 i k = dsym C d1 i k := by
  unfold dij2
  rw [if_pos ⟨hi, hrl⟩, if_neg (by omega), if_pos hk]

/-- The diagonal after pass 2 is minus the sum of the symmetrized
off-diagonal entries of the row. -/
theorem dij2_diag (C : Ctx pd dimn B) (d1 : RMat) {i : ℕ}
    (hi : i < C.pat.n) (hrl : 1 < C.pat.rl i) :
    dij2 C d1 i 0 = - ∑ x in Finset.Ico 1 (C.pat.rl i), dsym C d1 i x := by
  unfold dij2
  rw [if_pos ⟨hi, hrl⟩, if_pos rfl]

/-- Both sides of a symmetrized pair resolve to the pass-1 value stored
in the row of the smaller index. -/
theorem dij2_symm_entry (C : Ctx pd dimn B) (hP : C.pat.WF)
    (d0 : RMat) {i k : ℕ} (hi : i < C.pat.n) (hrl : 1 < C.pat.rl i)
    (hk1 : 1 ≤ k) (hk : k < C.pat.rl i) :
    dij2 C (dij1 C d0) i k =
      dij2 C (dij1 C d0) (C.pat.cols i k)
        (C.pat.posOf (C.pat.cols i k) i) := by
  obtain ⟨hjn, hjrl, hjne, l, hl1, hl, hcl⟩ :=
    C.pat.neighbor_active hP hi hrl hk1 hk
  have hpos : C.pat.posOf (C.pat.cols i k) i = l :=
    C.pat.posOf_eq hP hjn hl hcl
  have hposji : C.pat.posOf i (C.pat.cols i k) = k :=
    C.pat.posOf_eq hP hi hk rfl
  rw [hpos]
  rw [dij2_off C _ hi hrl hk1 hk, dij2_off C _ hjn hjrl hl1 hl]
  unfold dsym
  rcases lt_trichotomy (C.pat.cols i k) i with hlt | heq | hgt
  · -- column below the diagonal: row i reads the transposed pass-1 value
    rw [if_pos hlt, hpos]
    have : ¬ C.pat.cols (C.pat.cols i k) l < C.pat.cols i k := by
      rw [hcl]; omega
    rw [if_neg this]
  · exact absurd heq hjne
  · -- column above the diagonal: row j reads the transposed value of row i
    rw [if_neg (by omega)]
    have : C.pat.cols (C.pat.cols i k) l < C.pat.cols i k := by
      rw [hcl]; omega
    rw [if_pos this, hcl, hposji]

/-- The row sum of the viscosity matrix vanishes after pass 2. -/
theorem dij2_rowSum (C : Ctx pd dimn B) (d1 : RMat) {i : ℕ}
    (hi : i < C.pat.n) (hrl : 1 < C.pat.rl i) :
    ∑ k in Finset.range (C.pat.rl i), dij2 C d1 i k = 0 := by
  have hsplit : Finset.range (C.pat.rl i) =
      Finset.Ico 0 (C.pat.rl i) := by
    rw [Finset.range_eq_Ico]
  rw [hsplit, ← Finset.sum_Ico_consecutive _ (Nat.zero_le 1) (by omega)]
  have h0 : ∑ k in Finset.Ico 0 1, dij2 C d1 i k = dij2 C d1 i 0 := by
    simp
  rw [h0, dij2_diag C d1 hi hrl]
  have hoff : ∑ k in Finset.Ico 1 (C.pat.rl i), dij2 C d1 i k =
      ∑ k in Finset.Ico 1 (C.pat.rl i), dsym C d1 i k := by
    apply Finset.sum_congr rfl
    intro k hkm
    have := Finset.mem_Ico.mp hkm
    exact dij2_off C d1 hi hrl this.1 this.2
  rw [hoff]
  ring

/-! ## Helper lemmas about the `tau_max` reduction -/

theorem tauFold_none (C : Ctx pd dimn B) (d : RMat) :
    ∀ (l : List ℕ) (acc : Option ℚ), l.foldl (tauStep C d) acc = none →
      acc = none := by
  intro l
  induction l with
  | nil => intro acc h; simpa using h
  | cons a l ih =>
    intro acc h
    have h2 := ih (tauStep C d acc a) h
    unfold tauStep at h2
    by_cases he : eligible C a
    · rw [if_pos he] at h2
      cases acc with
      | none => rfl
      | some t => simp at h2
    · rwa [if_neg he] at h2

theorem tauFold_mono (C : Ctx pd dimn B) (d : RMat) :
    ∀ (l : List ℕ) (s t : ℚ), l.foldl (tauStep C d) (some s) = some t →
      t ≤ s := by
  intro l
  induction l with
  | nil => intro s t h; simp at h; exact h.ge
  | cons a l ih =>
    intro s t h
    simp only [List.foldl_cons] at h
    unfold tauStep at h
    by_cases he : eligible C a
    · rw [if_pos he] at h
      have := ih _ _ h
      exact le_trans this (min_le_left _ _)
    · rw [if_neg he] at h
      exact ih _ _ h

theorem tauFold_le (C : Ctx pd dimn B) (d : RMat) :
    ∀ (l : List ℕ) (acc : Option ℚ) (t : ℚ),
      l.foldl (tauStep C d) acc = some t →
      ∀ i ∈ l, eligible C i → t ≤ tauOf C d i := by
  intro l
  induction l with
  | nil => intro acc t _ i hi; simp at hi
  | cons a l ih =>
    intro acc t h i hi he
    simp only [List.foldl_cons] at h
    rcases List.mem_cons.mp hi with rfl | hmem
    · -- the head contributes `tauOf i` to the accumulator
      unfold tauStep at h
      rw [if_pos he] at h
      cases acc with
      | none => exact tauFold_mono C d l _ t h
      | some s =>
        exact le_trans (tauFold_mono C d l _ t h) (min_le_right _ _)
    · exact ih _ t h i hmem he

theorem tauFold_mem (C : Ctx pd dimn B) (d : RMat) :
    ∀ (l : List ℕ) (acc : Option ℚ) (t : ℚ),
      l.foldl (tauStep C d) acc = some t →
      (∃ i ∈ l, eligible C i ∧ t = tauOf C d i) ∨ acc = some t := by
  intro l
  induction l with
  | nil => intro acc t h; right; simpa using h
  | cons a l ih =>
    intro acc t h
    simp only [List.foldl_cons] at h
    rcases ih _ t h with ⟨i, hi, he, ht⟩ | hacc
    · exact Or.inl ⟨i, List.mem_cons_of_mem a hi, he, ht⟩
    · unfold tauStep at hacc
      by_cases he : eligible C a
      · rw [if_pos he] at hacc
        cases acc with
        | none =>
          left
          exact ⟨a, List.mem_cons_self a l, he, (Option.some_inj.mp hacc).symm⟩
        | some s =>
          have hmin := Option.some_inj.mp hacc
          rcases min_choice s (tauOf C d a) with hc | hc
          · right; rw [← hmin, hc]
          · left
            exact ⟨a, List.mem_cons_self a l, he, by rw [← hmin, hc]⟩
      · rw [if_neg he] at hacc
        exact Or.inr hacc

/-- When the reduction yields a finite value, it is a lower bound of the
candidates of all eligible rows. -/
theorem tauMaxOpt_le (C : Ctx pd dimn B) (d : RMat) {t : ℚ}
    (h : tauMaxOpt C d = some t) {i : ℕ} (hi : i < C.pat.n)
    (he : eligible C i) : t ≤ tauOf C d i :=
  tauFold_le C d _ _ t h i (List.mem_range.mpr hi) he

/-- When the reduction yields a finite value, some eligible row attains
it. -/
theorem tauMaxOpt_mem (C : Ctx pd dimn B) (d : RMat) {t : ℚ}
    (h : tauMaxOpt C d = some t) :
    ∃ i, i < C.pat.n ∧ eligible C i ∧ t = tauOf C d i := by
  rcases tauFold_mem C d _ _ t h with ⟨i, hi, he, ht⟩ | hacc
  · exact ⟨i, List.mem_range.mp hi, he, ht⟩
  · simp at hacc

/-! ## Unfolding lemmas for `step` -/

theorem step_eq_some (C : Ctx pd dimn B) (bufs : Bufs pd B)
    (U : ℕ → RState pd) (tauIn : ℚ) {tm : ℚ}
    (htm : tauMaxOpt C (dij2 C (dij1 C bufs.d0)) = some tm)
    (h0 : 0 < tm) :
    step C bufs U tauIn = some (stepBody C bufs U tauIn tm) := by
  unfold step
  rw [htm]
  simp [h0]

theorem stepBody_dM (C : Ctx pd dimn B) (bufs : Bufs pd B)
    (U : ℕ → RState pd) (tauIn tm : ℚ) :
    (stepBody C bufs U tauIn tm).dM = dij2 C (dij1 C bufs.d0) := by
  unfold stepBody stepCore
  by_cases h : C.limiterIter = 0 <;> simp [h, finalize]

theorem stepBody_tauMax (C : Ctx pd dimn B) (bufs : Bufs pd B)
    (U : ℕ → RState pd) (tauIn tm : ℚ) :
    (stepBody C bufs U tauIn tm).tauMax = tm := by
  unfold stepBody stepCore
  by_cases h : C.limiterIter = 0 <;> simp [h, finalize]

theorem stepBody_alphaA (C : Ctx pd dimn B) (bufs : Bufs pd B)
    (U : ℕ → RState pd) (tauIn tm : ℚ) :
    (stepBody C bufs U tauIn tm).alphaA = alphaArr C bufs.alpha0 := by
  unfold stepBody stepCore
  by_cases h : C.limiterIter = 0 <;> simp [h, finalize]

theorem stepBody_boundsA (C : Ctx pd dimn B) (bufs : Bufs pd B)
    (U : ℕ → RState pd) (tauIn tm : ℚ) :
    (stepBody C bufs U tauIn tm).boundsA = boundsArr C bufs.bounds0 := by
  unfold stepBody stepCore
  by_cases h : C.limiterIter = 0 <;> simp [h, finalize]

theorem stepBody_rA (C : Ctx pd dimn B) (bufs : Bufs pd B)
    (U : ℕ → RState pd) (tauIn tm : ℚ) :
    (stepBody C bufs U tauIn tm).rA =
      rArr C (dij2 C (dij1 C bufs.d0)) (alphaArr C bufs.alpha0) U
        bufs.r0 := by
  unfold stepBody stepCore
  by_cases h : C.limiterIter = 0 <;> simp [h, finalize]

theorem finalize_newU (C : Ctx pd dimn B) (tm : ℚ) (dM : RMat)
    (aA : ℕ → ℚ) (bA : ℕ → B) (rA : ℕ → RState pd) (s : SweepOut pd) :
    (finalize C tm dM aA bA rA s).newU = s.u := rfl

theorem finalize_pM (C : Ctx pd dimn B) (tm : ℚ) (dM : RMat)
    (aA : ℕ → ℚ) (bA : ℕ → B) (rA : ℕ → RState pd) (s : SweepOut pd) :
    (finalize C tm dM aA bA rA s).pM = s.p := rfl

theorem finalize_lM (C : Ctx pd dimn B) (tm : ℚ) (dM : RMat)
    (aA : ℕ → ℚ) (bA : ℕ → B) (rA : ℕ → RState pd) (s : SweepOut pd) :
    (finalize C tm dM aA bA rA s).lM = s.lcur := rfl

theorem finalize_lnextM (C : Ctx pd dimn B) (tm : ℚ) (dM : RMat)
    (aA : ℕ → ℚ) (bA : ℕ → B) (rA : ℕ → RState pd) (s : SweepOut pd) :
    (finalize C tm dM aA bA rA s).lnextM = s.lnxt := rfl

theorem finalize_restartNeeded (C : Ctx pd dimn B) (tm : ℚ) (dM : RMat)
    (aA : ℕ → ℚ) (bA : ℕ → B) (rA : ℕ → RState pd) (s : SweepOut pd) :
    (finalize C tm dM aA bA rA s).restartNeeded = s.rst := rfl

/-! ## Claim C2 -/

/-- C2: after pass 2 of `step` (and unchanged for the remainder of the
step, since `res.dM` is the matrix every later pass reads), the
graph-viscosity matrix of every unconstrained owned row is symmetric
(`d_ij = d_ji` for every nonzero, located through the transpose-index
map), its diagonal is the negative row sum of the off-diagonal entries,
and hence the full row sums to zero. -/
theorem claim_C2 (C : Ctx pd dimn B) (bufs : Bufs pd B)
    (U : ℕ → RState pd) (tauIn : ℚ) (hP : C.pat.WF) {tm : ℚ}
    (htm : tauMaxOpt C (dij2 C (dij1 C bufs.d0)) = some tm)
    (h0 : 0 < tm) :
    ∃ res, step C bufs U tauIn = some res ∧
      ∀ i, i < C.pat.n → 1 < C.pat.rl i →
        (∀ k, 1 ≤ k → k < C.pat.rl i →
          res.dM i k =
            res.dM (C.pat.cols i k) (C.pat.posOf (C.pat.cols i k) i)) ∧
        res.dM i 0 = - ∑ k in Finset.Ico 1 (C.pat.rl i), res.dM i k ∧
        ∑ k in Finset.range (C.pat.rl i), res.dM i k = 0 := by
  refine ⟨stepBody C bufs U tauIn tm, step_eq_some C bufs U tauIn htm h0, ?_⟩
  intro i hi hrl
  rw [stepBody_dM]
  refine ⟨?_, ?_, dij2_rowSum C _ hi hrl⟩
  · intro k hk1 hk
    exact dij2_symm_entry C hP bufs.d0 hi hrl hk1 hk
  · rw [dij2_diag C _ hi hrl]
    congr 1
    apply Finset.sum_congr rfl
    intro k hkm
    have := Finset.mem_Ico.mp hkm
    exact (dij2_off C _ hi hrl this.1 this.2).symm

/-! ## Concrete instances used to instantiate the theorems -/

/-- A two-row sparsity pattern: each row holds its diagonal and the other
other row as its DOF. -/
def pat2 : Pattern :=
  { n := 2, rl := fun _ => 2, cols := fun i k => if k = 0 then i else 1 - i }

/-- A three-row pattern whose third row is constrained
(`row_length == 1`). -/
def pat3 : Pattern :=
  { n := 3, rl := fun i => if i = 2 then 1 else 2,
    cols := fun i k => if i = 2 then 2 else if k = 0 then i else 1 - i }

/-- A concrete kernel context over `pat2` with unit data and an
always-successful limiter; DOF 1 sits on the physical boundary, so only
row 0 enters the `tau_max` reduction. -/
def ctx2 : Ctx 1 1 Unit :=
  { pat := pat2, lam := fun _ _ => 1, f := fun u _ _ => u 0,
    cij := fun _ _ _ => 1, m := fun _ => 1, mInv := fun _ => 1,
    mij := fun _ _ => 1 / 2, isBoundary := fun i => decide (i = 1),
    cfl := 1 / 5,
    cflWithBdry := false, limiterIter := 2, alphaVal := fun _ => 0,
    bnds := fun _ => (), limitFn := fun _ _ _ => (1, true),
    admissible := fun _ => true, checkBounds := false,
    strategy := Strategy.warn }

/-- The same context over `pat3`. -/
def ctx3 : Ctx 1 1 Unit :=
  { ctx2 with pat := pat3 }

/-- Zero-initialised transient buffers. -/
def bufs0 : Bufs 1 Unit :=
  { d0 := fun _ _ => 0, alpha0 := fun _ => 0, bounds0 := fun _ => (),
    r0 := fun _ _ => 0, p0 := fun _ _ _ => 0, l0 := fun _ _ => 0,
    lnext0 := fun _ _ => 0, newU0 := fun _ _ => 0 }

/-- A constant state vector. -/
def Uconst : ℕ → RState 1 := fun _ _ => 1

theorem pat2_wf : pat2.WF :=
  ⟨by decide, by decide, by decide, by decide, by decide⟩

theorem pat3_wf : pat3.WF :=
  ⟨by decide, by decide, by decide, by decide, by decide⟩

theorem dij1_ctx2_01 : dij1 ctx2 bufs0.d0 0 1 = 1 := by
  unfold dij1
  norm_num [ctx2, pat2]

theorem dij2_ctx2_00 : dij2 ctx2 (dij1 ctx2 bufs0.d0) 0 0 = -1 := by
  unfold dij2
  rw [if_pos (by norm_num [ctx2, pat2]), if_pos rfl]
  have hpn : ctx2.pat.rl 0 = 2 := rfl
  rw [hpn, show (2:ℕ) = 1 + 1 from rfl,
    Finset.sum_Ico_succ_top (le_refl 1), Finset.Ico_self,
    Finset.sum_empty]
  unfold dsym
  rw [if_neg (by norm_num [ctx2, pat2]), dij1_ctx2_01]
  norm_num

theorem tauMaxOpt_ctx2 :
    tauMaxOpt ctx2 (dij2 ctx2 (dij1 ctx2 bufs0.d0)) = some (1 / 10) := by
  unfold tauMaxOpt
  have hn : ctx2.pat.n = 2 := rfl
  rw [hn, show List.range 2 = [0, 1] from by decide]
  simp only [List.foldl_cons, List.foldl_nil]
  have he0 : eligible ctx2 0 := by
    constructor
    · norm_num [ctx2, pat2]
    · left; rfl
  have he1 : ¬ eligible ctx2 1 := by
    intro h
    rcases h.2 with hb | hb
    · exact absurd hb (by decide)
    · exact absurd hb (by decide)
  unfold tauStep
  rw [if_pos he0, if_neg he1]
  unfold tauOf
  rw [dij2_ctx2_00]
  norm_num [ctx2]

theorem dij1_ctx3_01 : dij1 ctx3 bufs0.d0 0 1 = 1 := by
  unfold dij1
  norm_num [ctx3, ctx2, pat3]

theorem dij2_ctx3_00 : dij2 ctx3 (dij1 ctx3 bufs0.d0) 0 0 = -1 := by
  unfold dij2
  rw [if_pos (by norm_num [ctx3, ctx2, pat3]), if_pos rfl]
  have hpn : ctx3.pat.rl 0 = 2 := rfl
  rw [hpn, show (2:ℕ) = 1 + 1 from rfl,
    Finset.sum_Ico_succ_top (le_refl 1), Finset.Ico_self,
    Finset.sum_empty]
  unfold dsym
  rw [if_neg (by norm_num [ctx3, ctx2, pat3]), dij1_ctx3_01]
  norm_num

theorem tauMaxOpt_ctx3 :
    tauMaxOpt ctx3 (dij2 ctx3 (dij1 ctx3 bufs0.d0)) = some (1 / 10) := by
  unfold tauMaxOpt
  have hn : ctx3.pat.n = 3 := rfl
  rw [hn, show List.range 3 = [0, 1, 2] from by decide]
  simp only [List.foldl_cons, List.foldl_nil]
  have he0 : eligible ctx3 0 := by
    constructor
    · norm_num [ctx3, ctx2, pat3]
    · left; rfl
  have he1 : ¬ eligible ctx3 1 := by
    intro h
    rcases h.2 with hb | hb
    · exact absurd hb (by decide)
    · exact absurd hb (by decide)
  have he2 : ¬ eligible ctx3 2 := by
    intro h
    have h1 := h.1
    have h2 : ctx3.pat.rl 2 = 1 := rfl
    omega
  unfold tauStep
  rw [if_pos he0, if_neg he1, if_neg he2]
  unfold tauOf
  rw [dij2_ctx3_00]
  norm_num [ctx3, ctx2]

/-- Witness for claim C2 at the concrete two-row instance. -/
theorem claim_C2_witness :
    pat2.WF ∧ tauMaxOpt ctx2 (dij2 ctx2 (dij1 ctx2 bufs0.d0)) =
        some (1 / 10) ∧ (0 : ℚ) < 1 / 10 ∧
      ∃ res, step ctx2 bufs0 Uconst 0 = some res ∧
        ∀ i, i < ctx2.pat.n → 1 < ctx2.pat.rl i →
          (∀ k, 1 ≤ k → k < ctx2.pat.rl i →
            res.dM i k = res.dM (ctx2.pat.cols i k)
              (ctx2.pat.posOf (ctx2.pat.cols i k) i)) ∧
          res.dM i 0 =
            - ∑ k in Finset.Ico 1 (ctx2.pat.rl i), res.dM i k ∧
          ∑ k in Finset.range (ctx2.pat.rl i), res.dM i k = 0 := by
  have htm : tauMaxOpt ctx2 (dij2 ctx2 (dij1 ctx2 bufs0.d0)) =
      some (1 / 10) := tauMaxOpt_ctx2
  exact ⟨pat2_wf, htm, by norm_num,
    claim_C2 ctx2 bufs0 Uconst 0 pat2_wf htm (by norm_num)⟩

/-! ## Claim C4 -/

/-- Claim C4: the candidate step size of every unconstrained owned row is
`tau_i = cfl * m_i / (-2 * d_ii)` with `d_ii` the freshly written
diagonal (`res.dM i 0`); the returned `tau_max` is the minimum of the
candidates over the eligible rows (those not in the boundary map unless
`cfl with boundary dofs` is set, which is what `eligible` states): it is
a lower bound of every candidate and is attained by one of them.  When
the caller passes `tau = 0`, the step is performed with `tau = tau_max`:
the run with input `0` returns the very same result as the run with
input `res.tauMax`. -/
theorem claim_C4 (C : Ctx pd dimn B) (bufs : Bufs pd B)
    (U : ℕ → RState pd) {tm : ℚ}
    (htm : tauMaxOpt C (dij2 C (dij1 C bufs.d0)) = some tm)
    (h0 : 0 < tm) :
    ∃ res, step C bufs U 0 = some res ∧
      res.tauMax = tm ∧
      (∀ i, i < C.pat.n → eligible C i →
        res.tauMax ≤ C.cfl * C.m i / (-2 * res.dM i 0)) ∧
      (∃ i, i < C.pat.n ∧ eligible C i ∧
        res.tauMax = C.cfl * C.m i / (-2 * res.dM i 0)) ∧
      step C bufs U res.tauMax = some res := by
  refine ⟨stepBody C bufs U 0 tm, step_eq_some C bufs U 0 htm h0, ?_⟩
  have hdm := stepBody_dM C bufs U 0 tm
  have htb := stepBody_tauMax C bufs U 0 tm
  refine ⟨htb, ?_, ?_, ?_⟩
  · intro i hi he
    rw [htb, hdm]
    exact tauMaxOpt_le C _ htm hi he
  · obtain ⟨i, hi, he, ht⟩ := tauMaxOpt_mem C _ htm
    refine ⟨i, hi, he, ?_⟩
    rw [htb, hdm]
    exact ht
  · rw [htb]
    have hbody : stepBody C bufs U tm tm = stepBody C bufs U 0 tm := by
      unfold stepBody
      rw [if_neg (ne_of_gt h0), if_pos rfl]
    rw [step_eq_some C bufs U tm htm h0, hbody]

/-- Witness for claim C4 at the concrete two-row instance. -/
theorem claim_C4_witness :
    tauMaxOpt ctx2 (dij2 ctx2 (dij1 ctx2 bufs0.d0)) = some (1 / 10) ∧
    (0 : ℚ) < 1 / 10 ∧
    ∃ res, step ctx2 bufs0 Uconst 0 = some res ∧
      res.tauMax = 1 / 10 ∧
      (∀ i, i < ctx2.pat.n → eligible ctx2 i →
        res.tauMax ≤ ctx2.cfl * ctx2.m i / (-2 * res.dM i 0)) ∧
      (∃ i, i < ctx2.pat.n ∧ eligible ctx2 i ∧
        res.tauMax = ctx2.cfl * ctx2.m i / (-2 * res.dM i 0)) ∧
      step ctx2 bufs0 Uconst res.tauMax = some res :=
  ⟨tauMaxOpt_ctx2, by norm_num,
    claim_C4 ctx2 bufs0 Uconst tauMaxOpt_ctx2 (by norm_num)⟩

/-! ## Claim C9 -/

/-- A row skipped by a non-final sweep keeps its buffer contents, with
the two `l` buffers swapped. -/
theorem nextSweep_frame (C : Ctx pd dimn B) (bA : ℕ → B) {i : ℕ}
    (hna : ¬ (i < C.pat.n ∧ 1 < C.pat.rl i)) (s : SweepOut pd) :
    (nextSweep C bA s).u i = s.u i ∧
    (∀ k, (nextSweep C bA s).lcur i k = s.lnxt i k) ∧
    (∀ k, (nextSweep C bA s).lnxt i k = s.lcur i k) ∧
    (∀ k, (nextSweep C bA s).p i k = s.p i k) := by
  have hna3 : ∀ k, ¬ (i < C.pat.n ∧ 1 < C.pat.rl i ∧ k < C.pat.rl i) := by
    intro k hk
    exact hna ⟨hk.1, hk.2.1⟩
  refine ⟨?_, ?_, fun k => rfl, ?_⟩
  · show sweepU C s.u s.lcur s.p i = s.u i
    unfold sweepU
    rw [if_neg hna]
  · intro k
    show sweepLnext C _ bA _ s.lcur s.p s.lnxt i k = s.lnxt i k
    unfold sweepLnext
    rw [if_neg (hna3 k)]
  · intro k
    show sweepPnew C _ s.lcur s.p i k = s.p i k
    unfold sweepPnew
    by_cases hs : decide (C.limiterIter = 2) = true
    · rw [if_pos hs]
    · rw [if_neg hs, if_neg (hna3 k)]

/-- Rows skipped by every sweep keep their buffer contents; the two `l`
buffers may change roles through the end-of-sweep swaps, so each of their
entries is one of the two initial contents. -/
theorem runSweeps_frame (C : Ctx pd dimn B) (bA : ℕ → B) {i : ℕ}
    (hna : ¬ (i < C.pat.n ∧ 1 < C.pat.rl i)) :
    ∀ (r : ℕ) (s : SweepOut pd),
      (runSweeps C bA r s).u i = s.u i ∧
      (∀ k, (runSweeps C bA r s).lcur i k = s.lcur i k ∨
        (runSweeps C bA r s).lcur i k = s.lnxt i k) ∧
      (∀ k, (runSweeps C bA r s).lnxt i k = s.lcur i k ∨
        (runSweeps C bA r s).lnxt i k = s.lnxt i k) ∧
      (∀ k, (runSweeps C bA r s).p i k = s.p i k) := by
  intro r
  induction r using Nat.strong_induction_on with
  | _ r ih =>
    match r with
    | 0 =>
      intro s
      exact ⟨rfl, fun k => Or.inl rfl, fun k => Or.inr rfl, fun k => rfl⟩
    | 1 =>
      intro s
      refine ⟨?_, fun k => Or.inl rfl, fun k => Or.inr rfl, fun k => rfl⟩
      show sweepU C s.u s.lcur s.p i = s.u i
      unfold sweepU
      rw [if_neg hna]
    | (r + 2) =>
      intro s
      obtain ⟨hu2, hl2, hn2, hp2⟩ := nextSweep_frame C bA hna s
      obtain ⟨ihu, ihl, ihn, ihp⟩ := ih (r + 1) (by omega) (nextSweep C bA s)
      have hrun : runSweeps C bA (r + 2) s =
          runSweeps C bA (r + 1) (nextSweep C bA s) := rfl
      rw [hrun]
      refine ⟨?_, ?_, ?_, ?_⟩
      · rw [ihu]
        exact hu2
      · intro k
        rcases ihl k with h | h
        · rw [h, hl2 k]
          exact Or.inr rfl
        · rw [h, hn2 k]
          exact Or.inl rfl
      · intro k
        rcases ihn k with h | h
        · rw [h, hl2 k]
          exact Or.inr rfl
        · rw [h, hn2 k]
          exact Or.inl rfl
      · intro k
        rw [ihp k]
        exact hp2 k


/-- Entries of constrained (or unowned) rows pass through both viscosity
passes untouched. -/
theorem dij12_inactive (C : Ctx pd dimn B) (d0 : RMat) {i : ℕ}
    (hna : ¬ (i < C.pat.n ∧ 1 < C.pat.rl i)) (k : ℕ) :
    dij2 C (dij1 C d0) i k = d0 i k := by
  unfold dij2 dij1
  rw [if_neg hna, if_neg ?_]
  intro h
  exact hna ⟨h.1, h.2.1⟩

/-- Claim C9: a constrained DOF (`row_length == 1`) is skipped by every
pass of `step`: its `new_U` entry and its rows of `alpha`, `bounds`,
`r`, `d_ij`, `p_ij` keep the initial buffer contents, and each entry of
the two `l_ij` buffers is one of the two initial contents (the buffers
are swapped, never written, at such a row). -/
theorem claim_C9 (C : Ctx pd dimn B) (bufs : Bufs pd B)
    (U : ℕ → RState pd) (tauIn : ℚ) {tm : ℚ}
    (htm : tauMaxOpt C (dij2 C (dij1 C bufs.d0)) = some tm)
    (h0 : 0 < tm) :
    ∃ res, step C bufs U tauIn = some res ∧
      ∀ i, C.pat.rl i = 1 →
        res.newU i = bufs.newU0 i ∧
        res.alphaA i = bufs.alpha0 i ∧
        res.boundsA i = bufs.bounds0 i ∧
        res.rA i = bufs.r0 i ∧
        (∀ k, res.dM i k = bufs.d0 i k) ∧
        (∀ k, res.pM i k = bufs.p0 i k) ∧
        (∀ k, res.lM i k = bufs.l0 i k ∨ res.lM i k = bufs.lnext0 i k) ∧
        (∀ k, res.lnextM i k = bufs.l0 i k ∨
          res.lnextM i k = bufs.lnext0 i k) := by
  refine ⟨stepBody C bufs U tauIn tm, step_eq_some C bufs U tauIn htm h0, ?_⟩
  intro i hrl1
  have hna : ¬ (i < C.pat.n ∧ 1 < C.pat.rl i) := by
    intro h
    omega
  have hna3 : ∀ k, ¬ (i < C.pat.n ∧ 1 < C.pat.rl i ∧ k < C.pat.rl i) := by
    intro k hk
    exact hna ⟨hk.1, hk.2.1⟩
  have hnu : newU3 C (dij2 C (dij1 C bufs.d0)) U
      (if tauIn = 0 then tm else tauIn) bufs.newU0 i = bufs.newU0 i := by
    unfold newU3
    rw [if_neg hna]
  have hal : alphaArr C bufs.alpha0 i = bufs.alpha0 i := by
    unfold alphaArr
    rw [if_neg hna]
  have hbo : boundsArr C bufs.bounds0 i = bufs.bounds0 i := by
    unfold boundsArr
    rw [if_neg hna]
  have hra : rArr C (dij2 C (dij1 C bufs.d0)) (alphaArr C bufs.alpha0) U
      bufs.r0 i = bufs.r0 i := by
    unfold rArr
    rw [if_neg hna]
  have hd : ∀ k, dij2 C (dij1 C bufs.d0) i k = bufs.d0 i k :=
    dij12_inactive C bufs.d0 hna
  unfold stepBody
  by_cases hli : C.limiterIter = 0
  · unfold stepCore
    rw [if_pos hli]
    rw [finalize_newU, finalize_pM, finalize_lM, finalize_lnextM]
    exact ⟨hnu, hal, hbo, hra, hd, fun k => rfl, fun k => Or.inl rfl,
      fun k => Or.inr rfl⟩
  · unfold stepCore
    rw [if_neg hli]
    rw [finalize_newU, finalize_pM, finalize_lM, finalize_lnextM]
    obtain ⟨hu, hl, hn, hp⟩ := runSweeps_frame C (boundsArr C bufs.bounds0)
      hna C.limiterIter
      (sweep0 C bufs U (if tauIn = 0 then tm else tauIn))
    refine ⟨?_, hal, hbo, hra, hd, ?_, ?_, ?_⟩
    · rw [hu]
      exact hnu
    · intro k
      rw [hp k]
      show pArr C (dij2 C (dij1 C bufs.d0)) (alphaArr C bufs.alpha0)
        (rArr C (dij2 C (dij1 C bufs.d0)) (alphaArr C bufs.alpha0) U
          bufs.r0) U (if tauIn = 0 then tm else tauIn) bufs.p0 i k =
        bufs.p0 i k
      unfold pArr
      rw [if_neg (hna3 k)]
    · intro k
      rcases hl k with h | h
      · rw [h]
        left
        show lArr C (boundsArr C bufs.bounds0)
          (newU3 C (dij2 C (dij1 C bufs.d0)) U
            (if tauIn = 0 then tm else tauIn) bufs.newU0)
          (dij2 C (dij1 C bufs.d0)) (alphaArr C bufs.alpha0)
          (rArr C (dij2 C (dij1 C bufs.d0)) (alphaArr C bufs.alpha0) U
            bufs.r0) U (if tauIn = 0 then tm else tauIn) bufs.l0 i k =
          bufs.l0 i k
        unfold lArr
        rw [if_neg (hna3 k)]
      · rw [h]
        right
        rfl
    · intro k
      rcases hn k with h | h
      · rw [h]
        left
        show lArr C (boundsArr C bufs.bounds0)
          (newU3 C (dij2 C (dij1 C bufs.d0)) U
            (if tauIn = 0 then tm else tauIn) bufs.newU0)
          (dij2 C (dij1 C bufs.d0)) (alphaArr C bufs.alpha0)
          (rArr C (dij2 C (dij1 C bufs.d0)) (alphaArr C bufs.alpha0) U
            bufs.r0) U (if tauIn = 0 then tm else tauIn) bufs.l0 i k =
          bufs.l0 i k
        unfold lArr
        rw [if_neg (hna3 k)]
      · rw [h]
        right
        rfl

/-- Witness for claim C9 at the three-row instance whose third row is
constrained. -/
theorem claim_C9_witness :
    tauMaxOpt ctx3 (dij2 ctx3 (dij1 ctx3 bufs0.d0)) = some (1 / 10) ∧
    (0 : ℚ) < 1 / 10 ∧ ctx3.pat.rl 2 = 1 ∧
    ∃ res, step ctx3 bufs0 Uconst 0 = some res ∧
      ∀ i, ctx3.pat.rl i = 1 →
        res.newU i = bufs0.newU0 i ∧
        res.alphaA i = bufs0.alpha0 i ∧
        res.boundsA i = bufs0.bounds0 i ∧
        res.rA i = bufs0.r0 i ∧
        (∀ k, res.dM i k = bufs0.d0 i k) ∧
        (∀ k, res.pM i k = bufs0.p0 i k) ∧
        (∀ k, res.lM i k = bufs0.l0 i k ∨ res.lM i k = bufs0.lnext0 i k) ∧
        (∀ k, res.lnextM i k = bufs0.l0 i k ∨
          res.lnextM i k = bufs0.lnext0 i k) :=
  ⟨tauMaxOpt_ctx3, by norm_num, rfl,
    claim_C9 ctx3 bufs0 Uconst 0 tauMaxOpt_ctx3 (by norm_num)⟩

/-! ## Claim C1 -/

theorem fluxJump_const (C : Ctx pd dimn B) {U : ℕ → RState pd}
    {u : RState pd} (hU : ∀ j, U j = u) (i k : ℕ) (comp : Fin pd) :
    fluxJump C U i k comp = 0 := by
  unfold fluxJump
  rw [hU i, hU (C.pat.cols i k)]
  simp

theorem barState_const (C : Ctx pd dimn B) (d : RMat) {U : ℕ → RState pd}
    {u : RState pd} (hU : ∀ j, U j = u) (i k : ℕ) (comp : Fin pd) :
    barState C d U i k comp = u comp := by
  unfold barState
  rw [fluxJump_const C hU, hU i, hU (C.pat.cols i k)]
  ring

/-- For a constant state the low-order update is the identity: the bar
states all equal the constant state and the viscosity row sums to zero
after pass 2. -/
theorem lowOrder_const (C : Ctx pd dimn B) (d0 : RMat)
    {U : ℕ → RState pd} {u : RState pd} (hU : ∀ j, U j = u) (tau : ℚ)
    {i : ℕ} (hi : i < C.pat.n) (hrl : 1 < C.pat.rl i) :
    lowOrder C (dij2 C (dij1 C d0)) U tau i = U i := by
  funext comp
  unfold lowOrder
  have hterm : ∀ k ∈ Finset.range (C.pat.rl i),
      tau * C.mInv i * 2 * dij2 C (dij1 C d0) i k *
        barState C (dij2 C (dij1 C d0)) U i k comp =
      (tau * C.mInv i * 2 * u comp) * dij2 C (dij1 C d0) i k := by
    intro k _
    rw [barState_const C _ hU]
    ring
  rw [Finset.sum_congr rfl hterm, ← Finset.mul_sum,
    dij2_rowSum C _ hi hrl, mul_zero, add_zero]

theorem rOf_const (C : Ctx pd dimn B) (d : RMat) (alphaA : ℕ → ℚ)
    {U : ℕ → RState pd} {u : RState pd} (hU : ∀ j, U j = u) (i : ℕ)
    (comp : Fin pd) : rOf C d alphaA U i comp = 0 := by
  unfold rOf
  rw [Finset.sum_eq_zero]
  intro k _
  rw [fluxJump_const C hU, hU i, hU (C.pat.cols i k)]
  ring

/-- For a constant state every direction `p_ij` of pass 4 vanishes: the
state jumps are zero and the `r` vector of every owned neighbour was
written as zero in pass 3. -/
theorem pOf_const (C : Ctx pd dimn B) (hP : C.pat.WF) (d0 : RMat)
    (alpha0 : ℕ → ℚ) (r0 : ℕ → RState pd) {U : ℕ → RState pd}
    {u : RState pd} (hU : ∀ j, U j = u) (tau : ℚ) {i k : ℕ}
    (hi : i < C.pat.n) (hrl : 1 < C.pat.rl i) (hk : k < C.pat.rl i)
    (comp : Fin pd) :
    pOf C (dij2 C (dij1 C d0)) (alphaArr C alpha0)
      (rArr C (dij2 C (dij1 C d0)) (alphaArr C alpha0) U r0) U tau
      i k comp = 0 := by
  have hrAi : rArr C (dij2 C (dij1 C d0)) (alphaArr C alpha0) U r0 i
      comp = 0 := by
    unfold rArr
    rw [if_pos ⟨hi, hrl⟩]
    exact rOf_const C _ _ hU i comp
  have hrAj : rArr C (dij2 C (dij1 C d0)) (alphaArr C alpha0) U r0
      (C.pat.cols i k) comp = 0 := by
    rcases Nat.eq_zero_or_pos k with h0 | h1
    · rw [h0, hP.diag i hi]
      exact hrAi
    · obtain ⟨hjn, hjrl, _, _⟩ := C.pat.neighbor_active hP hi hrl h1 hk
      unfold rArr
      rw [if_pos ⟨hjn, hjrl⟩]
      exact rOf_const C _ _ hU _ comp
  unfold pOf
  rw [hrAi, hrAj, hU i, hU (C.pat.cols i k)]
  ring

/-- The high-order update loop leaves `new_U` untouched whenever every
`p_ij` entry of the owned unconstrained rows is zero. -/
theorem sweepU_constP (C : Ctx pd dimn B) (U : ℕ → RState pd) (L : RMat)
    (P : SMat pd)
    (hp : ∀ i k, i < C.pat.n → 1 < C.pat.rl i → k < C.pat.rl i →
      ∀ comp, P i k comp = 0) :
    sweepU C U L P = U := by
  funext i
  unfold sweepU
  by_cases h : i < C.pat.n ∧ 1 < C.pat.rl i
  · rw [if_pos h]
    funext comp
    rw [Finset.sum_eq_zero, add_zero]
    intro k hk
    rw [hp i k h.1 h.2 (Finset.mem_range.mp hk) comp]
    ring
  · rw [if_neg h]

theorem sweepPnew_constP (C : Ctx pd dimn B) (short : Bool) (L : RMat)
    (P : SMat pd)
    (hp : ∀ i k, i < C.pat.n → 1 < C.pat.rl i → k < C.pat.rl i →
      ∀ comp, P i k comp = 0) :
    ∀ i k, i < C.pat.n → 1 < C.pat.rl i → k < C.pat.rl i →
      ∀ comp, sweepPnew C short L P i k comp = 0 := by
  intro i k hi hrl hk comp
  unfold sweepPnew
  by_cases hs : short = true
  · rw [if_pos hs]
    exact hp i k hi hrl hk comp
  · rw [if_neg hs, if_pos ⟨hi, hrl, hk⟩, hp i k hi hrl hk comp]
    ring

/-- The sweeps never change `new_U` when all `p_ij` vanish. -/
theorem runSweeps_constP (C : Ctx pd dimn B) (bA : ℕ → B) :
    ∀ (r : ℕ) (s : SweepOut pd),
      (∀ i k, i < C.pat.n → 1 < C.pat.rl i → k < C.pat.rl i →
        ∀ comp, s.p i k comp = 0) →
      (runSweeps C bA r s).u = s.u := by
  intro r
  induction r using Nat.strong_induction_on with
  | _ r ih =>
    match r with
    | 0 => intro s hp; rfl
    | 1 =>
      intro s hp
      show (lastSweep C s).u = s.u
      unfold lastSweep
      exact sweepU_constP C s.u s.lcur s.p hp
    | (r + 2) =>
      intro s hp
      have hrun : runSweeps C bA (r + 2) s =
          runSweeps C bA (r + 1) (nextSweep C bA s) := rfl
      rw [hrun]
      have hp2 : ∀ i k, i < C.pat.n → 1 < C.pat.rl i → k < C.pat.rl i →
          ∀ comp, (nextSweep C bA s).p i k comp = 0 := by
        intro i k hi hrl hk comp
        exact sweepPnew_constP C _ s.lcur s.p hp i k hi hrl hk comp
      rw [ih (r + 1) (by omega) (nextSweep C bA s) hp2]
      show (nextSweep C bA s).u = s.u
      unfold nextSweep
      exact sweepU_constP C s.u s.lcur s.p hp

/-- Claim C1 (amended): for a constant admissible state and no stage
states, `step` reproduces `old_U` exactly at every unconstrained owned
DOF; the returned `tau_max`, however, is not infinite: it is the finite
minimum `tm` produced by the pass-2 reduction (the infinite initial
value survives only when no row is eligible, and in that case `step`
aborts through its fatal assertion instead of returning). -/
theorem claim_C1 (C : Ctx pd dimn B) (bufs : Bufs pd B)
    (U : ℕ → RState pd) (tauIn : ℚ) (hP : C.pat.WF) (u : RState pd)
    (hU : ∀ j, U j = u) {tm : ℚ}
    (htm : tauMaxOpt C (dij2 C (dij1 C bufs.d0)) = some tm)
    (h0 : 0 < tm) :
    ∃ res, step C bufs U tauIn = some res ∧ res.tauMax = tm ∧
      ∀ i, i < C.pat.n → 1 < C.pat.rl i → res.newU i = U i := by
  refine ⟨stepBody C bufs U tauIn tm, step_eq_some C bufs U tauIn htm h0,
    stepBody_tauMax C bufs U tauIn tm, ?_⟩
  intro i hi hrl
  have hnu : newU3 C (dij2 C (dij1 C bufs.d0)) U
      (if tauIn = 0 then tm else tauIn) bufs.newU0 i = U i := by
    unfold newU3
    rw [if_pos ⟨hi, hrl⟩]
    exact lowOrder_const C bufs.d0 hU _ hi hrl
  unfold stepBody stepCore
  by_cases hli : C.limiterIter = 0
  · rw [if_pos hli, finalize_newU]
    exact hnu
  · rw [if_neg hli, finalize_newU]
    have hp : ∀ i k, i < C.pat.n → 1 < C.pat.rl i → k < C.pat.rl i →
        ∀ comp, (sweep0 C bufs U (if tauIn = 0 then tm else tauIn)).p
          i k comp = 0 := by
      intro i k hi hrl hk comp
      show pArr C (dij2 C (dij1 C bufs.d0)) (alphaArr C bufs.alpha0)
        (rArr C (dij2 C (dij1 C bufs.d0)) (alphaArr C bufs.alpha0) U
          bufs.r0) U (if tauIn = 0 then tm else tauIn) bufs.p0 i k comp =
        0
      unfold pArr
      rw [if_pos ⟨hi, hrl, hk⟩]
      exact pOf_const C hP bufs.d0 bufs.alpha0 bufs.r0 hU _ hi hrl hk comp
    rw [runSweeps_constP C (boundsArr C bufs.bounds0) C.limiterIter
      (sweep0 C bufs U (if tauIn = 0 then tm else tauIn)) hp]
    exact hnu

/-- Witness for the amended claim C1 at the concrete two-row instance
with the constant state `Uconst`. -/
theorem claim_C1_witness :
    pat2.WF ∧ (∀ j, Uconst j = (fun _ => 1)) ∧
    tauMaxOpt ctx2 (dij2 ctx2 (dij1 ctx2 bufs0.d0)) = some (1 / 10) ∧
    (0 : ℚ) < 1 / 10 ∧
    ∃ res, step ctx2 bufs0 Uconst 0 = some res ∧ res.tauMax = 1 / 10 ∧
      ∀ i, i < ctx2.pat.n → 1 < ctx2.pat.rl i → res.newU i = Uconst i :=
  ⟨pat2_wf, fun j => rfl, tauMaxOpt_ctx2, by norm_num,
    claim_C1 ctx2 bufs0 Uconst 0 pat2_wf (fun _ => 1) (fun j => rfl)
      tauMaxOpt_ctx2 (by norm_num)⟩

/-- Counterexample to claim C1 as stated: on a concrete constant-state
run the returned `tau_max` is the finite value `1/10`, not infinity (an
infinite `tau_max` is modelled by `tauMaxOpt = none`, on which `step`
does not return at all), and no "configured ceiling" exists in this
code. -/
theorem claim_C1_counterexample :
    (step ctx2 bufs0 Uconst 0).map StepResult.tauMax = some (1 / 10) ∧
    tauMaxOpt ctx2 (dij2 ctx2 (dij1 ctx2 bufs0.d0)) ≠ none := by
  constructor
  · rw [step_eq_some ctx2 bufs0 Uconst 0 tauMaxOpt_ctx2 (by norm_num)]
    rw [Option.map_some']
    rw [stepBody_tauMax]
  · rw [tauMaxOpt_ctx2]
    simp

/-! ## Claim C5 -/

/-- The restart flag accumulated by the sweeps is the initial flag ORed
with the contributions of the sweeps themselves. -/
theorem runSweeps_rst (C : Ctx pd dimn B) (bA : ℕ → B) :
    ∀ (r : ℕ) (s : SweepOut pd),
      (runSweeps C bA r s).rst = (s.rst || runSweepsRst C bA r s) := by
  intro r
  induction r using Nat.strong_induction_on with
  | _ r ih =>
    match r with
    | 0 =>
      intro s
      show s.rst = (s.rst || false)
      rw [Bool.or_false]
    | 1 =>
      intro s
      show (lastSweep C s).rst = _
      unfold lastSweep runSweepsRst
      rfl
    | (r + 2) =>
      intro s
      have hrun : runSweeps C bA (r + 2) s =
          runSweeps C bA (r + 1) (nextSweep C bA s) := rfl
      have hrst : runSweepsRst C bA (r + 2) s =
          (admFail C (sweepU C s.u s.lcur s.p) ||
            sweepFail C bA (sweepU C s.u s.lcur s.p) s.lcur s.p ||
            runSweepsRst C bA (r + 1) (nextSweep C bA s)) := rfl
      have hns : (nextSweep C bA s).rst =
          (s.rst || admFail C (sweepU C s.u s.lcur s.p) ||
            sweepFail C bA (sweepU C s.u s.lcur s.p) s.lcur s.p) := rfl
      rw [hrun, ih (r + 1) (by omega) (nextSweep C bA s), hrst, hns]
      simp [Bool.or_assoc]

/-- The pass-4 contribution to the restart flag is set exactly when some
`limit` invocation of pass 4 reports failure. -/
theorem pass4Fail_iff (C : Ctx pd dimn B) (bA : ℕ → B)
    (U3 : ℕ → RState pd) (d : RMat) (alphaA : ℕ → ℚ)
    (rA : ℕ → RState pd) (U : ℕ → RState pd) (tau : ℚ) :
    pass4Fail C bA U3 d alphaA rA U tau = true ↔
      ∃ i, i < C.pat.n ∧ 1 < C.pat.rl i ∧ ∃ k, k < C.pat.rl i ∧
        (C.limitFn (bA i) (U3 i) (pOf C d alphaA rA U tau i k)).2 =
          false := by
  unfold pass4Fail
  simp [List.any_eq_true, List.mem_range, Bool.and_eq_true]

/-- Claim C5: on a completed `step`, the restart flag drives the error
handling exactly as configured: under `warn` the warning counter is
incremented by one and no exception is thrown, under `raise_exception`
the restart counter is incremented by one and `Restart` is thrown; with
a clear flag neither counter changes and nothing is thrown.  The flag is
clear when limiting is disabled, and with limiting enabled it is set iff
some `limit` call of pass 4 failed or the sweeps contributed a failure
(a failing `limit` recomputation or a failing admissibility check,
`runSweepsRst`). -/
theorem claim_C5 (C : Ctx pd dimn B) (bufs : Bufs pd B)
    (U : ℕ → RState pd) (tauIn : ℚ) {tm : ℚ}
    (htm : tauMaxOpt C (dij2 C (dij1 C bufs.d0)) = some tm)
    (h0 : 0 < tm) :
    ∃ res, step C bufs U tauIn = some res ∧
      (res.restartNeeded = true →
        (C.strategy = Strategy.warn → res.nWarnInc = 1 ∧
          res.nRestartInc = 0 ∧ res.thrownRestart = false) ∧
        (C.strategy = Strategy.raiseExc → res.nWarnInc = 0 ∧
          res.nRestartInc = 1 ∧ res.thrownRestart = true)) ∧
      (res.restartNeeded = false → res.nWarnInc = 0 ∧
        res.nRestartInc = 0 ∧ res.thrownRestart = false) ∧
      (C.limiterIter = 0 → res.restartNeeded = false) ∧
      (C.limiterIter ≠ 0 → (res.restartNeeded = true ↔
        ((∃ i, i < C.pat.n ∧ 1 < C.pat.rl i ∧ ∃ k, k < C.pat.rl i ∧
          (C.limitFn (boundsArr C bufs.bounds0 i)
            (newU3 C (dij2 C (dij1 C bufs.d0)) U
              (if tauIn = 0 then tm else tauIn) bufs.newU0 i)
            (pOf C (dij2 C (dij1 C bufs.d0)) (alphaArr C bufs.alpha0)
              (rArr C (dij2 C (dij1 C bufs.d0)) (alphaArr C bufs.alpha0)
                U bufs.r0) U (if tauIn = 0 then tm else tauIn) i k)).2 =
            false) ∨
         runSweepsRst C (boundsArr C bufs.bounds0) C.limiterIter
           (sweep0 C bufs U (if tauIn = 0 then tm else tauIn)) =
           true))) := by
  refine ⟨stepBody C bufs U tauIn tm, step_eq_some C bufs U tauIn htm h0,
    ?_⟩
  unfold stepBody stepCore
  by_cases hli : C.limiterIter = 0
  · rw [if_pos hli]
    refine ⟨?_, ?_, fun _ => rfl, fun h => absurd hli h⟩
    · intro hrst
      exact absurd hrst (by simp [finalize])
    · intro _
      exact ⟨rfl, rfl, rfl⟩
  · rw [if_neg hli]
    rw [finalize_restartNeeded]
    have hflag : (runSweeps C (boundsArr C bufs.bounds0) C.limiterIter
        (sweep0 C bufs U (if tauIn = 0 then tm else tauIn))).rst =
        ((sweep0 C bufs U (if tauIn = 0 then tm else tauIn)).rst ||
          runSweepsRst C (boundsArr C bufs.bounds0) C.limiterIter
            (sweep0 C bufs U (if tauIn = 0 then tm else tauIn))) :=
      runSweeps_rst C _ C.limiterIter _
    refine ⟨?_, ?_, fun h => absurd h hli, ?_⟩
    · intro hrst
      constructor
      · intro hstrat
        unfold finalize
        rw [hrst, hstrat]
        exact ⟨rfl, rfl, rfl⟩
      · intro hstrat
        unfold finalize
        rw [hrst, hstrat]
        exact ⟨rfl, rfl, rfl⟩
    · intro hrst
      unfold finalize
      rw [hrst]
      exact ⟨rfl, rfl, rfl⟩
    · intro _
      rw [hflag]
      have hp4 := pass4Fail_iff C (boundsArr C bufs.bounds0)
        (newU3 C (dij2 C (dij1 C bufs.d0)) U
          (if tauIn = 0 then tm else tauIn) bufs.newU0)
        (dij2 C (dij1 C bufs.d0)) (alphaArr C bufs.alpha0)
        (rArr C (dij2 C (dij1 C bufs.d0)) (alphaArr C bufs.alpha0) U
          bufs.r0) U (if tauIn = 0 then tm else tauIn)
      rw [Bool.or_eq_true]
      constructor
      · intro h
        rcases h with h | h
        · exact Or.inl (hp4.mp h)
        · exact Or.inr h
      · intro h
        rcases h with h | h
        · exact Or.inl (hp4.mpr h)
        · exact Or.inr h

/-- Witness for claim C5 at the concrete two-row instance. -/
theorem claim_C5_witness :
    tauMaxOpt ctx2 (dij2 ctx2 (dij1 ctx2 bufs0.d0)) = some (1 / 10) ∧
    (0 : ℚ) < 1 / 10 ∧
    ∃ res, step ctx2 bufs0 Uconst 0 = some res ∧
      (res.restartNeeded = true →
        (ctx2.strategy = Strategy.warn → res.nWarnInc = 1 ∧
          res.nRestartInc = 0 ∧ res.thrownRestart = false) ∧
        (ctx2.strategy = Strategy.raiseExc → res.nWarnInc = 0 ∧
          res.nRestartInc = 1 ∧ res.thrownRestart = true)) ∧
      (res.restartNeeded = false → res.nWarnInc = 0 ∧
        res.nRestartInc = 0 ∧ res.thrownRestart = false) ∧
      (ctx2.limiterIter = 0 → res.restartNeeded = false) ∧
      (ctx2.limiterIter ≠ 0 → (res.restartNeeded = true ↔
        ((∃ i, i < ctx2.pat.n ∧ 1 < ctx2.pat.rl i ∧
          ∃ k, k < ctx2.pat.rl i ∧
          (ctx2.limitFn (boundsArr ctx2 bufs0.bounds0 i)
            (newU3 ctx2 (dij2 ctx2 (dij1 ctx2 bufs0.d0)) Uconst
              (if (0 : ℚ) = 0 then 1 / 10 else (0 : ℚ)) bufs0.newU0 i)
            (pOf ctx2 (dij2 ctx2 (dij1 ctx2 bufs0.d0))
              (alphaArr ctx2 bufs0.alpha0)
              (rArr ctx2 (dij2 ctx2 (dij1 ctx2 bufs0.d0))
                (alphaArr ctx2 bufs0.alpha0) Uconst bufs0.r0) Uconst
              (if (0 : ℚ) = 0 then 1 / 10 else (0 : ℚ)) i k)).2 =
            false) ∨
         runSweepsRst ctx2 (boundsArr ctx2 bufs0.bounds0)
           ctx2.limiterIter
           (sweep0 ctx2 bufs0 Uconst
             (if (0 : ℚ) = 0 then 1 / 10 else (0 : ℚ))) = true))) :=
  ⟨tauMaxOpt_ctx2, by norm_num,
    claim_C5 ctx2 bufs0 Uconst 0 tauMaxOpt_ctx2 (by norm_num)⟩

/-! ## Claim C3 -/

/-- The min-symmetrized coefficient looks the same from both ends of an
edge: `min(l_ij, l_ji) = min(l_ji, l_ij)` through the transpose map. -/
theorem lsym_trans (C : Ctx pd dimn B) (hP : C.pat.WF) (L : RMat)
    {i k : ℕ} (hi : i < C.pat.n) (hrl : 1 < C.pat.rl i)
    (hk : k < C.pat.rl i) :
    lsym C L (C.pat.cols i k) (C.pat.posOf (C.pat.cols i k) i) =
      lsym C L i k := by
  rcases Nat.eq_zero_or_pos k with h0 | h1
  · subst h0
    rw [hP.diag i hi, C.pat.posOf_diag hP hi (by omega)]
  · obtain ⟨hjn, hjrl, hjne, l, hl1, hl, hcl⟩ :=
      C.pat.neighbor_active hP hi hrl h1 hk
    have hpos : C.pat.posOf (C.pat.cols i k) i = l :=
      C.pat.posOf_eq hP hjn hl hcl
    have hposji : C.pat.posOf i (C.pat.cols i k) = k :=
      C.pat.posOf_eq hP hi hk rfl
    unfold lsym
    rw [hpos, hcl, hposji]
    exact min_comm _ _

theorem sweepLnext_true (C : Ctx pd dimn B) (bA : ℕ → B)
    (U2 : ℕ → RState pd) (L : RMat) (P : SMat pd) (N : RMat) {i k : ℕ}
    (hi : i < C.pat.n) (hrl : 1 < C.pat.rl i) (hk : k < C.pat.rl i) :
    sweepLnext C true bA U2 L P N i k =
      (1 - lsym C L i k) * (C.limitFn (bA i) (U2 i)
        (fun comp => (1 - lsym C L i k) * P i k comp)).1 := by
  unfold sweepLnext
  rw [if_pos ⟨hi, hrl, hk⟩]
  simp

theorem sweepLnext_false (C : Ctx pd dimn B) (bA : ℕ → B)
    (U2 : ℕ → RState pd) (L : RMat) (P : SMat pd) (N : RMat) {i k : ℕ}
    (hi : i < C.pat.n) (hrl : 1 < C.pat.rl i) (hk : k < C.pat.rl i) :
    sweepLnext C false bA U2 L P N i k =
      (C.limitFn (bA i) (U2 i)
        (fun comp => (1 - lsym C L i k) * P i k comp)).1 := by
  unfold sweepLnext
  rw [if_pos ⟨hi, hrl, hk⟩]
  simp

/-- Claim C3: with `limiter_iter_ == 2`, the shortcut of the first sweep
(store `(1 - l_ij) * l_ij_new` into the next `l`-matrix and leave `p_ij`
alone) gives the second sweep exactly the same high-order update of
`U_i` as the general path (store `l_ij_new` and replace `p_ij` by
`(1 - l_ij) * p_ij`), for every unconstrained owned row.  The
hypothesis `l_ij <= 1` reflects that the coefficients written by
`Limiter::limit` lie in `[t_min, t_max] = [0, 1]`. -/
theorem claim_C3 (C : Ctx pd dimn B) (hP : C.pat.WF) (bA : ℕ → B)
    (U2 : ℕ → RState pd) (L : RMat) (P : SMat pd) (N : RMat)
    (hL : ∀ i k, L i k ≤ 1) {i : ℕ} (hi : i < C.pat.n)
    (hrl : 1 < C.pat.rl i) :
    sweepU C U2 (sweepLnext C true bA U2 L P N)
      (sweepPnew C true L P) i =
    sweepU C U2 (sweepLnext C false bA U2 L P N)
      (sweepPnew C false L P) i := by
  unfold sweepU
  rw [if_pos ⟨hi, hrl⟩, if_pos ⟨hi, hrl⟩]
  funext comp
  congr 1
  apply Finset.sum_congr rfl
  intro k hkm
  have hk : k < C.pat.rl i := Finset.mem_range.mp hkm
  -- the transposed position is an entry of an unconstrained owned row
  have hj : C.pat.cols i k < C.pat.n ∧ 1 < C.pat.rl (C.pat.cols i k) ∧
      C.pat.posOf (C.pat.cols i k) i < C.pat.rl (C.pat.cols i k) := by
    rcases Nat.eq_zero_or_pos k with h0 | h1
    · subst h0
      rw [hP.diag i hi, C.pat.posOf_diag hP hi (by omega)]
      exact ⟨hi, hrl, by omega⟩
    · obtain ⟨hjn, hjrl, _, l, hl1, hl, hcl⟩ :=
        C.pat.neighbor_active hP hi hrl h1 hk
      rw [C.pat.posOf_eq hP hjn hl hcl]
      exact ⟨hjn, hjrl, hl⟩
  have hsym := lsym_trans C hP L hi hrl hk
  have hs1 : lsym C L i k ≤ 1 := by
    unfold lsym
    exact le_trans (min_le_left _ _) (hL i k)
  have hnn : (0 : ℚ) ≤ 1 - lsym C L i k := by linarith
  have hpt : sweepPnew C true L P i k comp = P i k comp := rfl
  have hpf : sweepPnew C false L P i k comp =
      (1 - lsym C L i k) * P i k comp := by
    unfold sweepPnew
    rw [if_neg (by simp), if_pos ⟨hi, hrl, hk⟩]
  unfold lsym
  rw [sweepLnext_true C bA U2 L P N hi hrl hk,
    sweepLnext_true C bA U2 L P N hj.1 hj.2.1 hj.2.2,
    sweepLnext_false C bA U2 L P N hi hrl hk,
    sweepLnext_false C bA U2 L P N hj.1 hj.2.1 hj.2.2,
    hsym, ← mul_min_of_nonneg _ _ hnn, hpt, hpf]
  ring

/-- Witness for claim C3 at the concrete two-row instance with constant
limiter coefficients `1/2`. -/
theorem claim_C3_witness :
    pat2.WF ∧ (∀ i k, ((fun _ _ => (1 : ℚ) / 2) : RMat) i k ≤ 1) ∧
    0 < ctx2.pat.n ∧ 1 < ctx2.pat.rl 0 ∧
    sweepU ctx2 Uconst
      (sweepLnext ctx2 true (fun _ => ()) Uconst (fun _ _ => 1 / 2)
        bufs0.p0 bufs0.lnext0)
      (sweepPnew ctx2 true (fun _ _ => 1 / 2) bufs0.p0) 0 =
    sweepU ctx2 Uconst
      (sweepLnext ctx2 false (fun _ => ()) Uconst (fun _ _ => 1 / 2)
        bufs0.p0 bufs0.lnext0)
      (sweepPnew ctx2 false (fun _ _ => 1 / 2) bufs0.p0) 0 :=
  ⟨pat2_wf, fun i k => by norm_num, by norm_num [ctx2, pat2],
    by norm_num [ctx2, pat2],
    claim_C3 ctx2 pat2_wf (fun _ => ()) Uconst (fun _ _ => 1 / 2)
      bufs0.p0 bufs0.lnext0 (fun i k => by norm_num)
      (by norm_num [ctx2, pat2]) (by norm_num [ctx2, pat2])⟩

/-! ## Claim C6 -/

/-- A context with a vanishing wave-speed estimate, so that the pass-1/2
viscosity entries of the off-diagonal are zero. -/
def ctxZ : Ctx 1 1 Unit :=
  { ctx2 with lam := fun _ _ => 0 }

/-- A non-constant state: DOF `j` carries the value `j`. -/
def Uramp : ℕ → RState 1 := fun j _ => (j : ℚ)

/-- Claim C6 (amended): pass 3 computes the bar state as
`U_ij_bar = 0.5 * (U_i + U_j - temp / d_ij)` with the division taken on
`d_ij` as-is — there is no epsilon replacement; consequently the code
agrees with the epsilon-guarded formula of the spec exactly on the entries
where `d_ij` is nonzero. -/
theorem claim_C6 (C : Ctx pd dimn B) (eps : ℚ) (d : RMat)
    (U : ℕ → RState pd) (i k : ℕ) (h : d i k ≠ 0) :
    barState C d U i k = barStateSpec C eps d U i k := by
  funext comp
  unfold barState barStateSpec
  rw [if_neg h]

/-- Witness for the amended claim C6. -/
theorem claim_C6_witness :
    ((fun _ _ => (1 : ℚ)) : RMat) 0 1 ≠ 0 ∧
    barState ctx2 (fun _ _ => (1 : ℚ)) Uramp 0 1 =
      barStateSpec ctx2 1 (fun _ _ => (1 : ℚ)) Uramp 0 1 :=
  ⟨by norm_num, claim_C6 ctx2 1 (fun _ _ => (1 : ℚ)) Uramp 0 1
    (by norm_num)⟩

theorem dij2_ctxZ_01 : dij2 ctxZ (dij1 ctxZ bufs0.d0) 0 1 = 0 := by
  unfold dij2 dsym dij1
  norm_num [ctxZ, ctx2, pat2]

theorem fluxJump_ctxZ_01 :
    fluxJump ctxZ Uramp 0 1 0 = 1 := by
  unfold fluxJump
  rw [Fin.sum_univ_one]
  norm_num [ctxZ, ctx2, pat2, Uramp]

/-- Counterexample to claim C6 as stated: with a vanishing wave-speed
estimate the freshly symmetrized `d_01` is `0`, and on that entry the
bar state computed by the code differs from the epsilon-guarded
formula of the spec — no replacement of the zero denominator happens in pass 3.
(In the rational model the unguarded division yields `1/0 = 0`; in IEEE
arithmetic it yields an infinity; under neither convention does it match
the guarded value.) -/
theorem claim_C6_counterexample :
    dij2 ctxZ (dij1 ctxZ bufs0.d0) 0 1 = 0 ∧
    barState ctxZ (dij2 ctxZ (dij1 ctxZ bufs0.d0)) Uramp 0 1 ≠
      barStateSpec ctxZ (1 / 1000) (dij2 ctxZ (dij1 ctxZ bufs0.d0))
        Uramp 0 1 := by
  refine ⟨dij2_ctxZ_01, ?_⟩
  intro h
  have h0 := congrFun h 0
  unfold barState barStateSpec at h0
  rw [dij2_ctxZ_01, fluxJump_ctxZ_01] at h0
  norm_num [ctxZ, ctx2, pat2, Uramp] at h0

/-! ## Claim C7: the AEOS limiter relaxation (`euler_aeos/limiter.h`) -/

namespace AEOS

/-- The bounds tuple `(rho_min, rho_max, s_min, gamma_min)` of the AEOS
limiter. -/
structure LBounds where
  rhoMin : ℝ
  rhoMax : ℝ
  sMin : ℝ
  gammaMin : ℝ

/-- The limiter state when `apply_relaxation` runs: the accumulated
bounds and the relaxation accumulators. -/
structure LimState where
  bounds : LBounds
  rhoNum : ℝ
  rhoDen : ℝ
  sInterpMax : ℝ

/-- The relaxation radius computed by `apply_relaxation`:
`r_i = sqrt(hd_i)`, cubed square roots according to the dimension, then
scaled by `factor`.  (`Real.sqrt` forces this part of the development to
be noncomputable; the rest of the embedding stays executable over
`ℚ`.) -/
noncomputable def relaxR (dimn : ℕ) (hd factor : ℝ) : ℝ :=
  (if dimn = 2 then (Real.sqrt (Real.sqrt hd)) ^ (3 : ℕ)
   else if dimn = 1 then (Real.sqrt hd) ^ (3 : ℕ)
   else Real.sqrt hd) * factor

/-- The relaxation `Limiter::apply_relaxation(hd_i, factor)` of
`euler_aeos/limiter.h`.
`b` is the covolume constant `eos_interpolation_b()` and `eps` the
machine epsilon added to the relaxation denominator. -/
noncomputable def applyRelaxation (dimn : ℕ) (b eps : ℝ) (st : LimState)
    (hd factor : ℝ) : LBounds :=
  let ri := relaxR dimn hd factor
  let rhoRelaxation := |st.rhoNum| / (|st.rhoDen| + eps)
  let rhoMin2 := max ((1 - ri) * st.bounds.rhoMin)
    (st.bounds.rhoMin - rhoRelaxation)
  let sMin2 := max ((1 - ri) * st.bounds.sMin)
    (2 * st.bounds.sMin - st.sInterpMax)
  let numerator := (st.bounds.gammaMin + 1) * st.bounds.rhoMax
  let denominator := st.bounds.gammaMin - 1 + 2 * b * st.bounds.rhoMax
  let upperBound := numerator / denominator
  let rhoMax2 := min upperBound ((1 + ri) * st.bounds.rhoMax)
  let rhoMax3 := min rhoMax2 (rhoMax2 + rhoRelaxation)
  { rhoMin := rhoMin2, rhoMax := rhoMax3, sMin := sMin2,
    gammaMin := st.bounds.gammaMin }

/-- Claim C7: the relaxation radius equals `factor * hd_i ^ (1.5 / d)`
for `d = 1, 2, 3` — that is `hd^(3/2)`, `hd^(3/4)`, `hd^(1/2)` — and the
relaxed `rho_max` is the minimum of the covolume bound
`(gamma_min + 1) * rho_max / (gamma_min - 1 + 2 * b * rho_max)` and the
radius-widened bound, hence in particular capped by the covolume
bound. -/
theorem claim_C7 (dimn : ℕ) (hd1 : 1 ≤ dimn) (hd3 : dimn ≤ 3)
    (b eps : ℝ) (st : LimState) (hd factor : ℝ) (hhd : 0 ≤ hd)
    (heps : 0 < eps) :
    relaxR dimn hd factor =
      factor * hd ^ ((3 / 2 : ℝ) / (dimn : ℝ)) ∧
    (applyRelaxation dimn b eps st hd factor).rhoMax =
      min ((st.bounds.gammaMin + 1) * st.bounds.rhoMax /
          (st.bounds.gammaMin - 1 + 2 * b * st.bounds.rhoMax))
        ((1 + relaxR dimn hd factor) * st.bounds.rhoMax) ∧
    (applyRelaxation dimn b eps st hd factor).rhoMax ≤
      (st.bounds.gammaMin + 1) * st.bounds.rhoMax /
        (st.bounds.gammaMin - 1 + 2 * b * st.bounds.rhoMax) := by
  have hsq : Real.sqrt hd = hd ^ ((1 : ℝ) / 2) := Real.sqrt_eq_rpow hd
  have hr : relaxR dimn hd factor =
      factor * hd ^ ((3 / 2 : ℝ) / (dimn : ℝ)) := by
    interval_cases dimn
    · -- dimn = 1
      unfold relaxR
      rw [if_neg (by omega), if_pos rfl, hsq,
        ← Real.rpow_natCast (hd ^ ((1 : ℝ) / 2)) 3, ← Real.rpow_mul hhd]
      rw [mul_comm]
      norm_num
    · -- dimn = 2
      unfold relaxR
      rw [if_pos rfl, hsq,
        Real.sqrt_eq_rpow (hd ^ ((1 : ℝ) / 2)),
        ← Real.rpow_mul hhd,
        ← Real.rpow_natCast (hd ^ ((1 : ℝ) / 2 * (1 / 2))) 3,
        ← Real.rpow_mul hhd]
      rw [mul_comm]
      norm_num
    · -- dimn = 3
      unfold relaxR
      rw [if_neg (by omega), if_neg (by omega), hsq, mul_comm]
      norm_num
  refine ⟨hr, ?_, ?_⟩
  · have hrel : 0 ≤ |st.rhoNum| / (|st.rhoDen| + eps) := by
      apply div_nonneg (abs_nonneg _)
      have := abs_nonneg st.rhoDen
      linarith
    show min (min _ _) (min _ _ + _) = _
    rw [min_eq_left (le_add_of_nonneg_right hrel)]
  · show min (min _ _) (min _ _ + _) ≤ _
    exact le_trans (min_le_left _ _) (min_le_left _ _)

/-- Witness for claim C7 in one space dimension at `hd = 1`,
`factor = 2`. -/
theorem claim_C7_witness :
    1 ≤ 1 ∧ (1 : ℕ) ≤ 3 ∧ (0 : ℝ) ≤ 1 ∧ (0 : ℝ) < 1 ∧
    (relaxR 1 1 2 = 2 * (1 : ℝ) ^ ((3 / 2 : ℝ) / ((1 : ℕ) : ℝ)) ∧
     (applyRelaxation 1 0 1 ⟨⟨0, 1, 0, 2⟩, 0, 0, 0⟩ 1 2).rhoMax =
       min ((2 + 1) * 1 / (2 - 1 + 2 * 0 * 1))
         ((1 + relaxR 1 1 2) * 1) ∧
     (applyRelaxation 1 0 1 ⟨⟨0, 1, 0, 2⟩, 0, 0, 0⟩ 1 2).rhoMax ≤
       (2 + 1) * 1 / (2 - 1 + 2 * 0 * 1)) :=
  ⟨le_refl 1, by norm_num, by norm_num, by norm_num,
    claim_C7 1 (le_refl 1) (by norm_num) 0 1 ⟨⟨0, 1, 0, 2⟩, 0, 0, 0⟩ 1 2
      (by norm_num) (by norm_num)⟩

end AEOS

/-! ## Claim C8: the SynchronizationDispatch latch (`openmp.h`) -/

namespace Sync

/-- The observable state of one `SynchronizationDispatch` object together
with the per-thread `thread_ready` flags of the team: `ready t` is the
local flag of thread `t`, `nReady` the shared atomic `n_threads_ready_`,
`executed` the `executed_payload_` flag, and `fired` counts how many
times the callback has been invoked (instrumentation of the model; the
object itself does not store it).  `T` is `omp_get_num_threads()`.
Interleaved execution of the team is modelled by a sequential trace of
`check` calls. -/
structure SyncState (T : ℕ) where
  ready : Fin T → Bool
  nReady : ℕ
  executed : Bool
  fired : ℕ

/-- The freshly constructed dispatch: nothing ready, payload not yet
executed. -/
def initState (T : ℕ) : SyncState T :=
  { ready := fun _ => false, nReady := 0, executed := false, fired := 0 }

/-- The method `SynchronizationDispatch::check(thread_ready, condition)` (with
`USE_COMMUNICATION_HIDING` enabled): when the flag of the thread is still
clear and the condition holds, latch the flag and increment the counter;
the thread that brings the counter to the team size marks the payload
executed and fires it. -/
def check {T : ℕ} (s : SyncState T) (t : Fin T) (cond : Bool) :
    SyncState T :=
  if s.ready t = false ∧ cond = true then
    if s.nReady + 1 = T then
      { ready := Function.update s.ready t true, nReady := s.nReady + 1,
        executed := true, fired := s.fired + 1 }
    else
      { ready := Function.update s.ready t true, nReady := s.nReady + 1,
        executed := s.executed, fired := s.fired }
  else s

/-- The destructor: fire the payload if it never ran. -/
def finish {T : ℕ} (s : SyncState T) : SyncState T :=
  if s.executed = false then { s with fired := s.fired + 1 } else s

/-- A full sequence of `check` calls from construction. -/
def runChecks {T : ℕ} (tr : List (Fin T × Bool)) : SyncState T :=
  tr.foldl (fun s e => check s e.1 e.2) (initState T)

/-- The number of threads whose condition has become true so far. -/
def readyCount {T : ℕ} (s : SyncState T) : ℕ :=
  (Finset.univ.filter (fun t => s.ready t = true)).card

/-- The latch invariant: the counter counts the latched threads, the
payload has executed exactly when the counter reached the team size, and
the payload has fired once if executed and not at all otherwise. -/
def SyncInv {T : ℕ} (s : SyncState T) : Prop :=
  s.nReady = readyCount s ∧
  s.executed = decide (0 < T ∧ s.nReady = T) ∧
  s.fired = (if s.executed = true then 1 else 0)

theorem initState_inv (T : ℕ) : SyncInv (initState T) := by
  refine ⟨?_, ?_, rfl⟩
  · show (0 : ℕ) = readyCount (initState T)
    unfold readyCount initState
    simp
  · show false = decide (0 < T ∧ 0 = T)
    rcases Nat.eq_zero_or_pos T with h | h <;> simp [h]
    omega

/-- A thread whose flag is still clear means the counter has not reached
the team size. -/
theorem nReady_lt_of_not_ready {T : ℕ} {s : SyncState T}
    (hinv : SyncInv s) (t : Fin T) (ht : s.ready t = false) :
    s.nReady ≠ T := by
  intro hTeq
  have hcount : readyCount s = T := by rw [← hinv.1, hTeq]
  have huniv : (Finset.univ.filter (fun x => s.ready x = true)) =
      (Finset.univ : Finset (Fin T)) := by
    apply Finset.eq_of_subset_of_card_le (Finset.filter_subset _ _)
    unfold readyCount at hcount
    rw [hcount]
    simp
  have : t ∈ Finset.univ.filter (fun x => s.ready x = true) := by
    rw [huniv]
    exact Finset.mem_univ t
  rw [Finset.mem_filter] at this
  rw [this.2] at ht
  exact Bool.noConfusion ht

theorem check_inv {T : ℕ} {s : SyncState T} (hinv : SyncInv s)
    (t : Fin T) (cond : Bool) : SyncInv (check s t cond) := by
  unfold check
  by_cases hc : s.ready t = false ∧ cond = true
  · rw [if_pos hc]
    have hne : s.nReady ≠ T := nReady_lt_of_not_ready hinv t hc.1
    have hexe : s.executed = false := by
      rw [hinv.2.1]
      simp
      intro _
      exact hne
    have hcard : (Finset.univ.filter
        (fun x => Function.update s.ready t true x = true)).card =
        readyCount s + 1 := by
      have hset : (Finset.univ.filter
          (fun x => Function.update s.ready t true x = true)) =
          insert t (Finset.univ.filter (fun x => s.ready x = true)) := by
        ext x
        by_cases hx : x = t
        · subst hx
          simp [Function.update_same]
        · simp [Function.update_noteq hx, hx]
      unfold readyCount
      rw [hset, Finset.card_insert_of_not_mem]
      rw [Finset.mem_filter]
      intro hmem
      rw [hmem.2] at hc
      exact Bool.noConfusion hc.1
    by_cases hT : s.nReady + 1 = T
    · rw [if_pos hT]
      refine ⟨?_, ?_, ?_⟩
      · show s.nReady + 1 = (Finset.univ.filter
          (fun x => Function.update s.ready t true x = true)).card
        rw [hcard, ← hinv.1]
      · show true = decide (0 < T ∧ s.nReady + 1 = T)
        simp [hT]
        omega
      · show s.fired + 1 = 1
        rw [hinv.2.2, hexe]
        rfl
    · rw [if_neg hT]
      refine ⟨?_, ?_, ?_⟩
      · show s.nReady + 1 = (Finset.univ.filter
          (fun x => Function.update s.ready t true x = true)).card
        rw [hcard, ← hinv.1]
      · show s.executed = decide (0 < T ∧ s.nReady + 1 = T)
        rw [hexe]
        simp
        intro _
        exact hT
      · show s.fired = _
        exact hinv.2.2
  · rw [if_neg hc]
    exact hinv

theorem runChecks_inv {T : ℕ} (tr : List (Fin T × Bool)) :
    SyncInv (runChecks tr) := by
  unfold runChecks
  have : ∀ (l : List (Fin T × Bool)) (s : SyncState T), SyncInv s →
      SyncInv (l.foldl (fun s e => check s e.1 e.2) s) := by
    intro l
    induction l with
    | nil => intro s hs; exact hs
    | cons a l ih =>
      intro s hs
      exact ih _ (check_inv hs a.1 a.2)
  exact this tr (initState T) (initState_inv T)

/-- Claim C8: over every interleaved sequence of `check` calls followed
by destruction, the callback fires exactly once in total; it fires
during the checks precisely when the count of threads whose condition
became true reaches the team size `T` (and otherwise the destructor
fires it); and the counter indeed counts those threads. -/
theorem claim_C8 (T : ℕ) (hT : 0 < T) (tr : List (Fin T × Bool)) :
    (finish (runChecks tr)).fired = 1 ∧
    (runChecks tr).fired =
      (if (runChecks tr).nReady = T then 1 else 0) ∧
    (runChecks tr).nReady = readyCount (runChecks tr) := by
  have hinv := runChecks_inv tr
  refine ⟨?_, ?_, hinv.1⟩
  · unfold finish
    by_cases he : (runChecks tr).executed = false
    · rw [if_pos he]
      show (runChecks tr).fired + 1 = 1
      rw [hinv.2.2, he]
      rfl
    · rw [if_neg he]
      rw [hinv.2.2]
      rw [Bool.not_eq_false] at he
      rw [he]
      rfl
  · rw [hinv.2.2, hinv.2.1]
    by_cases hn : (runChecks tr).nReady = T
    · simp [hn, hT]
    · simp [hn]

/-- Witness for claim C8: one thread, one check with a true condition. -/
theorem claim_C8_witness :
    0 < 1 ∧
    ((finish (runChecks [((0 : Fin 1), true)])).fired = 1 ∧
     (runChecks [((0 : Fin 1), true)]).fired =
       (if (runChecks [((0 : Fin 1), true)]).nReady = 1 then 1 else 0) ∧
     (runChecks [((0 : Fin 1), true)]).nReady =
       readyCount (runChecks [((0 : Fin 1), true)])) :=
  ⟨Nat.zero_lt_one, claim_C8 1 Nat.zero_lt_one [((0 : Fin 1), true)]⟩

end Sync

/-! ## Claim C10: `MultiComponentVector` (`multicomponent_vector.h`) -/

namespace MCV

/-- The loop of `export_component`: ascending over the locally owned
scalar DOFs, write `scalar_vector[i] := V[i * n_comp + component]`
(`exportLoop nc c V m s` is the scalar buffer after the writes for
`i = 0, ..., m-1`; index `m - 1` is written last, as in the ascending
C++ loop). -/
def exportLoop (nc c : ℕ) (V : ℕ → ℚ) : ℕ → (ℕ → ℚ) → (ℕ → ℚ)
  | 0, s => s
  | (m + 1), s =>
    Function.update (exportLoop nc c V m s) m (V (m * nc + c))

/-- The method `MultiComponentVector::export_component` on a single rank (the
final
`update_ghost_values` is the identity: the ghost range is empty). -/
def exportComponent (nc c localSize : ℕ) (V s0 : ℕ → ℚ) : ℕ → ℚ :=
  exportLoop nc c V localSize s0

/-- The loop of `import_component`: ascending over the locally owned
scalar DOFs, write `V[i * n_comp + component] := scalar_vector[i]`. -/
def importLoop (nc c : ℕ) (sv : ℕ → ℚ) : ℕ → (ℕ → ℚ) → (ℕ → ℚ)
  | 0, V => V
  | (m + 1), V =>
    Function.update (importLoop nc c sv m V) (m * nc + c) (sv m)

/-- The method `MultiComponentVector::import_component`. -/
def importComponent (nc c localSize : ℕ) (V sv : ℕ → ℚ) : ℕ → ℚ :=
  importLoop nc c sv localSize V

theorem exportLoop_lt (nc c : ℕ) (V : ℕ → ℚ) :
    ∀ (m : ℕ) (s : ℕ → ℚ) (i : ℕ), i < m →
      exportLoop nc c V m s i = V (i * nc + c) := by
  intro m
  induction m with
  | zero => intro s i hi; omega
  | succ m ih =>
    intro s i hi
    show Function.update (exportLoop nc c V m s) m (V (m * nc + c)) i = _
    by_cases him : i = m
    · subst him
      rw [Function.update_same]
    · rw [Function.update_noteq him]
      exact ih s i (by omega)

theorem importLoop_roundtrip (nc c localSize : ℕ) (V s0 : ℕ → ℚ) :
    ∀ (m : ℕ), m ≤ localSize → ∀ (W : ℕ → ℚ),
      (∀ x, W x = V x) →
      ∀ x, importLoop nc c (exportComponent nc c localSize V s0) m W x =
        V x := by
  intro m
  induction m with
  | zero => intro _ W hW x; exact hW x
  | succ m ih =>
    intro hm W hW x
    show Function.update
      (importLoop nc c (exportComponent nc c localSize V s0) m W)
      (m * nc + c) (exportComponent nc c localSize V s0 m) x = V x
    by_cases hx : x = m * nc + c
    · subst hx
      rw [Function.update_same]
      exact exportLoop_lt nc c V localSize s0 m (by omega)
    · rw [Function.update_noteq hx]
      exact ih (by omega) W hW x

/-- Claim C10: `export_component(s, c)` writes
`s[i] = V[i * n_comp + c]` for every locally owned `i`, and the round
trip `export_component` followed by `import_component` writes back
exactly the exported values, leaving `V` unchanged on every entry (in
particular on all locally owned ones). -/
theorem claim_C10 (nc c localSize : ℕ) (_hc : c < nc) (V s0 : ℕ → ℚ) :
    (∀ i, i < localSize →
      exportComponent nc c localSize V s0 i = V (i * nc + c)) ∧
    (∀ x, importComponent nc c localSize V
      (exportComponent nc c localSize V s0) x = V x) := by
  constructor
  · intro i hi
    exact exportLoop_lt nc c V localSize s0 i hi
  · intro x
    exact importLoop_roundtrip nc c localSize V s0 localSize (le_refl _)
      V (fun _ => rfl) x

/-- Witness for claim C10 with two components and two owned DOFs. -/
theorem claim_C10_witness :
    1 < 2 ∧
    ((∀ i, i < 2 →
      exportComponent 2 1 2 (fun x => (x : ℚ)) (fun _ => 0) i =
        ((i * 2 + 1 : ℕ) : ℚ)) ∧
     (∀ x, importComponent 2 1 2 (fun x => (x : ℚ))
       (exportComponent 2 1 2 (fun x => (x : ℚ)) (fun _ => 0)) x =
         ((x : ℕ) : ℚ))) :=
  ⟨by decide, claim_C10 2 1 2 (by decide) (fun x => (x : ℚ)) (fun _ => 0)⟩

end MCV

end Ryujin
